import Mathlib

/-!
Verification of the metadata extractor, keyword matcher, statistics
aggregator and repository of the astro paper project.

Strings are modelled as `List Char` (Lean `String` is a structure over
`List Char`; `String.toList` is the coercion).  Each Python string
primitive used by the source is embedded as an executable function on
`List Char`, and each component of `main.py` / `plots.py` is translated
definition by definition.  Left-to-right scanners (`str.split`,
`str.replace`, `str.count`, the `re` substitutions) are written with a
`skip` counter so that the recursion is structural: after a match of
length `n` the scanner emits its output and then consumes the remaining
`n - 1` matched characters one at a time.
-/

set_option maxHeartbeats 1600000

abbrev Str := List Char

/-- Python whitespace, the character class stripped by `str.strip()` and
matched by `\s` (ASCII range). -/
def pySpace (c : Char) : Bool :=
  c == ' ' || c == '\t' || c == '\n' || c == '\r' || c == '\x0b' || c == '\x0c'

/-- Python `str.strip()`: drop whitespace from both ends. -/
def pyStrip (s : Str) : Str :=
  ((s.dropWhile pySpace).reverse.dropWhile pySpace).reverse

/-- Python `str.lower()` (ASCII). -/
def lowerStr (s : Str) : Str := s.map Char.toLower

/-- Python `str.upper()` (ASCII). -/
def upperStr (s : Str) : Str := s.map Char.toUpper

/-- Python `needle in haystack` on strings: substring containment.
`containsSub [] s = true`, matching Python. -/
def containsSub (pat : Str) : Str → Bool
  | [] => pat.isPrefixOf []
  | c :: rest => pat.isPrefixOf (c :: rest) || containsSub pat rest

/-- Scanner for Python `str.split(sep)` with non-empty `sep`: cut at each
non-overlapping occurrence, left to right. -/
def splitOnGo (pat : Str) (s : Str) (skip : Nat) (acc : Str) : List Str :=
  match s, skip with
  | [], _ => [acc.reverse]
  | _ :: rest, Nat.succ k => splitOnGo pat rest k acc
  | c :: rest, 0 =>
    if !pat.isEmpty && pat.isPrefixOf (c :: rest) then
      acc.reverse :: splitOnGo pat rest (pat.length - 1) []
    else
      splitOnGo pat rest 0 (c :: acc)

/-- Python `str.split(sep)` for a non-empty separator. -/
def splitOnSub (pat : Str) (s : Str) : List Str := splitOnGo pat s 0 []

/-- Scanner for Python `str.replace(pat, "")`: remove every
non-overlapping occurrence, left to right. -/
def removeGo (pat : Str) (s : Str) (skip : Nat) : Str :=
  match s, skip with
  | [], _ => []
  | _ :: rest, Nat.succ k => removeGo pat rest k
  | c :: rest, 0 =>
    if !pat.isEmpty && pat.isPrefixOf (c :: rest) then
      removeGo pat rest (pat.length - 1)
    else
      c :: removeGo pat rest 0

/-- Python `str.replace(pat, "")` for a non-empty `pat`. -/
def removeAll (pat : Str) (s : Str) : Str := removeGo pat s 0

/-- Python `" ".join(xs)`. -/
def joinSpace (xs : List Str) : Str := List.intercalate [' '] xs

/-- `content.split("\n")`, the line splitting done by `load_paper`. -/
def linesOf (content : Str) : List Str := splitOnSub ['\n'] content

/-- The record populated by `Paper.load_paper`. -/
structure PaperR where
  title : Str
  authors : List Str
  category : Str
  abstract : Str
deriving Repr, DecidableEq

/-! ## Labeled-format path (`Paper.load_paper`, `if has_labels` branch) -/

/-- Prefix tags of the labeled format. -/
def titleTag : Str := "Title:".toList
def authorsTag : Str := "Authors:".toList
def categoryTag : Str := "Category:".toList
def abstractTag : Str := "Abstract:".toList

/-- One iteration of the labeled-format `for line in lines` loop; the
accumulator is `(title, authors, category)`. -/
def labeledStep (acc : Str × List Str × Str) (line : Str) : Str × List Str × Str :=
  let s := pyStrip line
  if titleTag.isPrefixOf s then
    (pyStrip (removeAll titleTag s), acc.2.1, acc.2.2)
  else if authorsTag.isPrefixOf s then
    let astr := pyStrip (removeAll authorsTag s)
    (acc.1, ((splitOnSub [','] astr).map pyStrip).filter (fun a => a ≠ []), acc.2.2)
  else if categoryTag.isPrefixOf s then
    (acc.1, acc.2.1, pyStrip (removeAll categoryTag s))
  else acc

/-- The `if has_labels` branch of `load_paper`.  The abstract is
`content.split("Abstract:")[1].strip()` when the marker occurs (Python
would raise on a missing index, but the `in` guard ensures at least two
parts); otherwise the abstract is empty. -/
def labeledExtract (lines : List Str) (content : Str) : PaperR :=
  let acc := lines.foldl labeledStep ([], [], [])
  let abs_ :=
    if containsSub abstractTag content then
      pyStrip (((splitOnSub abstractTag content).drop 1).headD [])
    else []
  ⟨acc.1, acc.2.1, acc.2.2, abs_⟩

/-! ## Heuristic path: title detection -/

/-- `stripped.isupper()`: at least one cased character and every cased
character upper case (ASCII). -/
def pyIsUpper (s : Str) : Bool :=
  s.any Char.isAlpha && s.all (fun c => !c.isAlpha || c.isUpper)

/-- Header words skipped by title detection. -/
def headerWords : List Str :=
  ["preprint".toList, "doi:".toList, "accepted".toList, "received".toList]

/-- A line skipped as a header: fully upper case, or containing one of
the header words (case-insensitive substring). -/
def headerish (s : Str) : Bool :=
  pyIsUpper s || headerWords.any (fun w => containsSub w (lowerStr s))

/-- An author-looking line: a digit among the first 5 characters, or
starting with `*`. -/
def authorish (s : Str) : Bool :=
  (s.take 5).any Char.isDigit || ['*'].isPrefixOf s

/-- The title-detection loop over the first 20 lines.  Returns
`(author_start_idx, title)`.  The title is only assigned when an
author-looking line is found; when the loop runs out, the accumulated
candidate lines are discarded, exactly as in the source (`self.title`
stays empty).  The `else: break` with `author_start_idx` already set is
unreachable, because finding an author line breaks immediately. -/
def titleScan (i : Nat) (ls : List Str) (acc : List Str) : Option Nat × Str :=
  match ls with
  | [] => (none, [])
  | l :: rest =>
    let s := pyStrip l
    if s.length < 10 then titleScan (i + 1) rest acc
    else if headerish s then titleScan (i + 1) rest acc
    else if !authorish s then titleScan (i + 1) rest (acc ++ [s])
    else (some i, pyStrip (joinSpace acc))

/-- Collector of the fallback title loop over lines 1–5: keep stripped
lines longer than 10 characters, stop (exclusively) at a line with a
digit among its first 5 characters or containing `@`; shorter lines are
skipped without stopping. -/
def fallbackCollect : List Str → List Str
  | [] => []
  | l :: rest =>
    let s := pyStrip l
    if s ≠ [] ∧ s.length > 10 then
      if (s.take 5).any Char.isDigit || s.contains '@' then []
      else s :: fallbackCollect rest
    else fallbackCollect rest

/-- The `if not self.title and len(lines) > 2` fallback. -/
def titleFallback (lines : List Str) : Str :=
  let pot := fallbackCollect ((lines.take 6).drop 1)
  if pot ≠ [] then pyStrip (joinSpace pot) else []

/-! ## Heuristic path: author-line collection and parsing -/

/-- A digit among the first 10 characters, an `@`, or a `*`: the line is
collected as an author/affiliation line. -/
def markerCond (s : Str) : Bool :=
  (s.take 10).any Char.isDigit || s.contains '@' || s.contains '*'

/-- The redundant second condition: starts with `1` or `*`. -/
def oneStarCond (s : Str) : Bool :=
  ['1'].isPrefixOf s || ['*'].isPrefixOf s

/-- Mentions an affiliation word (case-insensitive substring). -/
def affilCond (s : Str) : Bool :=
  ["department".toList, "university".toList, "institute".toList,
   "school".toList].any (fun w => containsSub w (lowerStr s))

/-- The author-line collection loop
`for i in range(author_start_idx, min(author_start_idx + 10, len(lines)))`,
run on `lines.drop author_start_idx` with 10 units of fuel.  A blank line
stops collection; a line matching neither collection condition stops only
when it mentions an affiliation word, and is otherwise skipped while the
loop continues. -/
def collectAuthors : Nat → List Str → List Str
  | 0, _ => []
  | _ + 1, [] => []
  | n + 1, l :: rest =>
    let s := pyStrip l
    if s = [] then []
    else if markerCond s then s :: collectAuthors n rest
    else if oneStarCond s then s :: collectAuthors n rest
    else if affilCond s then []
    else collectAuthors n rest

/-- `re.sub(r'\S+@\S+', '', text)` removes, within each maximal run of
non-space characters, the whole run whenever the pattern matches inside
it.  A match starting anywhere in a token exists exactly when the token
has an `@` at an interior position followed by a further non-space
character, and greedy matching of the two `\S+` groups then spans the
token from its start to its end. -/
def tokenKill (t : Str) : Bool := ((t.drop 1).dropLast).contains '@'

/-- Scanner for `re.sub(r'\S+@\S+', '', text)`. -/
def subEmailsGo (s : Str) (skip : Nat) : Str :=
  match s, skip with
  | [], _ => []
  | _ :: rest, Nat.succ k => subEmailsGo rest k
  | c :: rest, 0 =>
    if pySpace c then c :: subEmailsGo rest 0
    else
      let tok := (c :: rest).takeWhile (fun d => !pySpace d)
      if tokenKill tok then subEmailsGo rest (tok.length - 1)
      else c :: subEmailsGo rest 0

def subEmails (s : Str) : Str := subEmailsGo s 0

/-- Length of a match of `ORCID:\s*\d+[-\d\s]*` at the head of `s`, if
any: the literal tag, a greedy whitespace run, at least one digit, then a
greedy run over `-`, digits and whitespace (the `\d+` digits merge into
that run). -/
def orcidMatchLen (s : Str) : Option Nat :=
  if ("ORCID:".toList).isPrefixOf s then
    let r1 := s.drop 6
    let ws := r1.takeWhile pySpace
    let r2 := r1.drop ws.length
    let ds := r2.takeWhile Char.isDigit
    if ds = [] then none
    else
      let r3 := r2.drop ds.length
      let tail := r3.takeWhile (fun c => c == '-' || c.isDigit || pySpace c)
      some (6 + ws.length + ds.length + tail.length)
  else none

/-- Scanner for `re.sub(r'ORCID:\s*\d+[-\d\s]*', '', text)`. -/
def subOrcidGo (s : Str) (skip : Nat) : Str :=
  match s, skip with
  | [], _ => []
  | _ :: rest, Nat.succ k => subOrcidGo rest k
  | c :: rest, 0 =>
    match orcidMatchLen (c :: rest) with
    | some n => subOrcidGo rest (n - 1)
    | none => c :: subOrcidGo rest 0

def subOrcid (s : Str) : Str := subOrcidGo s 0

/-- Length of a delimiter match of `,\s*and\s*|,\s*|\s+and\s+` at the
head of `s`: the alternatives are tried in order, each built from greedy
whitespace runs followed by literals (no backtracking can help, because
the literals begin with non-space characters). -/
def delimLen (s : Str) : Option Nat :=
  match s with
  | ',' :: r =>
    let ws := r.takeWhile pySpace
    let r2 := r.drop ws.length
    if ("and".toList).isPrefixOf r2 then
      let ws2 := (r2.drop 3).takeWhile pySpace
      some (1 + ws.length + 3 + ws2.length)
    else some (1 + ws.length)
  | _ =>
    let ws := s.takeWhile pySpace
    if ws = [] then none
    else
      let r2 := s.drop ws.length
      if ("and".toList).isPrefixOf r2 then
        let ws2 := (r2.drop 3).takeWhile pySpace
        if ws2 = [] then none else some (ws.length + 3 + ws2.length)
      else none

/-- Scanner for `re.split(r',\s*and\s*|,\s*|\s+and\s+', text)`. -/
def splitDelimsGo (s : Str) (skip : Nat) (acc : Str) : List Str :=
  match s, skip with
  | [], _ => [acc.reverse]
  | _ :: rest, Nat.succ k => splitDelimsGo rest k acc
  | c :: rest, 0 =>
    match delimLen (c :: rest) with
    | some n => acc.reverse :: splitDelimsGo rest (n - 1) []
    | none => splitDelimsGo rest 0 (c :: acc)

def splitDelims (s : Str) : List Str := splitDelimsGo s 0 []

/-- A numeric, footnote or star marker stripped from author names by
`re.sub(r'[\d★*]', '', a)`. -/
def authorMark (c : Char) : Bool := c.isDigit || c == '★' || c == '*'

/-- Author parsing from the joined author lines (source lines 152–164):
drop e-mails and ORCID ids, split on the comma/`and` delimiters, strip
and keep pieces longer than 2 characters, strip markers, and keep the
results still longer than 2 characters. -/
def parseAuthors (text : Str) : List Str :=
  let t2 := subOrcid (subEmails text)
  let parts := splitDelims t2
  let a1 := (parts.map pyStrip).filter (fun a => a ≠ [] ∧ a.length > 2)
  let a2 := a1.map (fun a => pyStrip (a.filter (fun c => !authorMark c)))
  a2.filter (fun a => a.length > 2)

/-! ## Heuristic path: abstract and category -/

/-- A line whose stripped upper-cased form is exactly `ABSTRACT`, or
starts with `ABSTRACT` and is shorter than 20 characters. -/
def isAbstractMarker (l : Str) : Bool :=
  let s := upperStr (pyStrip l)
  s == "ABSTRACT".toList
    || (("ABSTRACT".toList).isPrefixOf s && decide (s.length < 20))

/-- Index of the first line satisfying `p`, counting from `i`. -/
def firstIdxFrom (p : Str → Bool) (i : Nat) : List Str → Option Nat
  | [] => none
  | l :: rest => if p l then some i else firstIdxFrom p (i + 1) rest

/-- `re.match(r'^\d+\s+(INTRODUCTION|Introduction|INTRO)', stripped)`:
at least one digit, at least one whitespace character, then one of the
three case-sensitive literals. -/
def introHeadingCS (s : Str) : Bool :=
  let ds := s.takeWhile Char.isDigit
  let r1 := s.drop ds.length
  let ws := r1.takeWhile pySpace
  let r2 := r1.drop ws.length
  !ds.isEmpty && !ws.isEmpty &&
    (("INTRODUCTION".toList).isPrefixOf r2
      || ("Introduction".toList).isPrefixOf r2
      || ("INTRO".toList).isPrefixOf r2)

/-- A stripped line at which abstract collection stops. -/
def isStopHeading (s : Str) : Bool :=
  introHeadingCS s
    || ("KEY WORDS".toList).isPrefixOf (upperStr s)
    || ("KEYWORDS".toList).isPrefixOf (upperStr s)

/-- The abstract collection loop: gather stripped non-blank lines, stop
at the first stop heading. -/
def collectAbstract : List Str → List Str
  | [] => []
  | l :: rest =>
    let s := pyStrip l
    if isStopHeading s then []
    else if s ≠ [] then s :: collectAbstract rest
    else collectAbstract rest

/-- Case-insensitive literal prefix test (`pat` given lower case). -/
def ciPrefixOf (pat : Str) (s : Str) : Bool :=
  lowerStr (s.take pat.length) == pat

/-- The lookahead `\d+\s+(?:INTRODUCTION|Introduction|INTRO)` under
`(?i)`. -/
def introHeadingCI (s : Str) : Bool :=
  let ds := s.takeWhile Char.isDigit
  let r1 := s.drop ds.length
  let ws := r1.takeWhile pySpace
  let r2 := r1.drop ws.length
  !ds.isEmpty && !ws.isEmpty &&
    (ciPrefixOf ("introduction".toList) r2 || ciPrefixOf ("intro".toList) r2)

/-- Lookahead of the abstract fallback regex (source line 189):
`\d+\s+(?:INTRODUCTION|Introduction|INTRO)|Keywords|Key words`, all
case-insensitive. -/
def stopAbstractRe (r : Str) : Bool :=
  introHeadingCI r || ciPrefixOf ("keywords".toList) r
    || ciPrefixOf ("key words".toList) r

/-- Lookahead of the category regex (source line 196):
`\d+\s+(?:INTRODUCTION|Introduction|INTRO)|$`, where `$` matches at the
end of the string or before a final newline. -/
def stopCategoryRe (r : Str) : Bool :=
  introHeadingCI r || r == [] || r == ['\n']

/-- Minimal lazy group `(.+?)` before a lookahead: consume at least one
character, growing until `stop` holds at the remainder. -/
def minGroupAux (stop : Str → Bool) (acc : Str) : Str → Option Str
  | [] => none
  | c :: r => if stop r then some (c :: acc).reverse else minGroupAux stop (c :: acc) r

/-- Backtracking of the greedy `[:\s]*` run: lengths are tried from `k`
down to 0, and for each the lazy group is minimal. -/
def tryKs (stop : Str → Bool) (after : Str) : Nat → Option Str
  | 0 => minGroupAux stop [] after
  | k + 1 =>
    match minGroupAux stop [] (after.drop (k + 1)) with
    | some g => some g
    | none => tryKs stop after k

/-- `re.search` for the pattern family
`PREFIX[:\s]*(.+?)(?=STOP)` with `re.DOTALL`: scan for the leftmost
start position where `prefLens` yields a matching literal alternative,
run the greedy-run/lazy-group engine there, else advance one character.
Returns the text of group 1. -/
def searchLazy (prefLens : Str → List Nat) (stop : Str → Bool) : Str → Option Str
  | [] => none
  | c :: rest =>
    match (prefLens (c :: rest)).firstM (fun n =>
      let after := (c :: rest).drop n
      tryKs stop after (after.takeWhile (fun d => d == ':' || pySpace d)).length) with
    | some g => some g
    | none => searchLazy prefLens stop rest

/-- Literal alternatives of the abstract fallback regex: `abstract`,
case-insensitive. -/
def prefAbstract (s : Str) : List Nat :=
  if ciPrefixOf ("abstract".toList) s then [8] else []

/-- Literal alternatives of the category regex: `Keywords` then
`Key words`, case-insensitive. -/
def prefKeywords (s : Str) : List Nat :=
  (if ciPrefixOf ("keywords".toList) s then [8] else [])
    ++ (if ciPrefixOf ("key words".toList) s then [9] else [])

/-- The abstract produced by the heuristic path. -/
def heurAbstract (content : Str) (lines : List Str) : Str :=
  match firstIdxFrom isAbstractMarker 0 lines with
  | some i => pyStrip (joinSpace (collectAbstract (lines.drop (i + 1))))
  | none =>
    match searchLazy prefAbstract stopAbstractRe content with
    | some g => pyStrip g
    | none => []

/-- The category produced by the heuristic path (empty when the keywords
regex does not match). -/
def heurCategory (content : Str) : Str :=
  match searchLazy prefKeywords stopCategoryRe content with
  | some g => (pyStrip g).take 100
  | none => []

/-- The `else` branch of `load_paper`: heuristic extraction from raw
PDF-derived text. -/
def heuristicExtract (content : Str) (lines : List Str) : PaperR :=
  let ts := titleScan 0 (lines.take 20) []
  let title0 := ts.2
  let title :=
    if title0 = [] ∧ lines.length > 2 then titleFallback lines else title0
  let authorLines :=
    match ts.1 with
    | some i => collectAuthors 10 (lines.drop i)
    | none => []
  let authors :=
    if authorLines ≠ [] then parseAuthors (joinSpace authorLines) else []
  ⟨title, authors, heurCategory content, heurAbstract content lines⟩

/-! ## Dispatch (`load_paper`) -/

/-- `has_labels`: some line among the first 20 starts, after stripping,
with `Title:`. -/
def hasLabels (lines : List Str) : Bool :=
  (lines.take 20).any (fun l => titleTag.isPrefixOf (pyStrip l))

/-- `Paper.load_paper` on the raw file content. -/
def loadPaperContent (content : Str) : PaperR :=
  let lines := linesOf content
  if hasLabels lines then labeledExtract lines content
  else heuristicExtract content lines

/-! ## Keyword matcher (`Paper.get_searchable_text`,
`Paper.contains_keywords`, `Paper.get_matching_keywords`) -/

/-- `f"{self.title} {self.abstract}"`. -/
def getSearchableText (p : PaperR) : Str := p.title ++ ' ' :: p.abstract

/-- `Paper.contains_keywords`. -/
def containsKeywords (p : PaperR) (keywords : List Str) (caseSensitive : Bool) : Bool :=
  if keywords = [] then true
  else
    let st := if caseSensitive then getSearchableText p
              else lowerStr (getSearchableText p)
    let ks := if caseSensitive then keywords else keywords.map lowerStr
    ks.any (fun k => containsSub k st)

/-- `Paper.get_matching_keywords`: the original keywords whose (possibly
lower-cased) form occurs in the searchable text, in input order. -/
def getMatchingKeywords (p : PaperR) (keywords : List Str) (caseSensitive : Bool) : List Str :=
  if keywords = [] then []
  else
    let st := if caseSensitive then getSearchableText p
              else lowerStr (getSearchableText p)
    let ks := if caseSensitive then keywords else keywords.map lowerStr
    (keywords.zip ks).filterMap
      (fun pr => if containsSub pr.2 st then some pr.1 else none)

/-! ## Statistics aggregator (`plots.py`) -/

/-- Scanner for `re.sub(r"\s+", " ", s)`: emit a single space at the
start of each whitespace run (`inWS` records being inside a run). -/
def collapseGo (inWS : Bool) : Str → Str
  | [] => []
  | c :: rest =>
    if pySpace c then
      if inWS then collapseGo true rest else ' ' :: collapseGo true rest
    else c :: collapseGo false rest

/-- `_normalize_space`: collapse each whitespace run to a single space,
then strip. -/
def normalizeSpace (s : Str) : Str := pyStrip (collapseGo false s)

/-- A regex word character (`\w`, ASCII): letters, digits, underscore. -/
def isWordChar (c : Char) : Bool := c.isAlphanum || c == '_'

/-- Word boundary after the match: end of text, or a non-word character. -/
def boundaryAfter (kw : Str) (s : Str) : Bool :=
  match (s.drop kw.length).head? with
  | none => true
  | some d => !isWordChar d

/-- Scanner for `len(re.findall(rf"\b{kw}\b", text))` with `kw` made of
word characters: count occurrences of `kw` preceded and followed by a
word boundary, scanning left to right without overlap. -/
def countWBGo (kw : Str) (s : Str) (skip : Nat) (prevW : Bool) : Nat :=
  match s, skip with
  | [], _ => 0
  | c :: rest, Nat.succ k => countWBGo kw rest k (isWordChar c)
  | c :: rest, 0 =>
    if !kw.isEmpty && kw.isPrefixOf (c :: rest) && !prevW && boundaryAfter kw (c :: rest) then
      1 + countWBGo kw rest (kw.length - 1) (isWordChar c)
    else countWBGo kw rest 0 (isWordChar c)

def countWordBoundary (kw : Str) (s : Str) : Nat := countWBGo kw s 0 false

/-- Scanner for Python `text.count(pat)` with non-empty `pat`:
non-overlapping left-to-right occurrences. -/
def pyCountGo (pat : Str) (s : Str) (skip : Nat) : Nat :=
  match s, skip with
  | [], _ => 0
  | _ :: rest, Nat.succ k => pyCountGo pat rest k
  | c :: rest, 0 =>
    if !pat.isEmpty && pat.isPrefixOf (c :: rest) then
      1 + pyCountGo pat rest (pat.length - 1)
    else pyCountGo pat rest 0

def pyCount (pat : Str) (s : Str) : Nat := pyCountGo pat s 0

/-- Python `str.isalnum()`: non-empty and all alphanumeric. -/
def pyIsAlnum (s : Str) : Bool := !s.isEmpty && s.all Char.isAlphanum

/-- `_count_occurrences(text, keyword)` from `plots.py`. -/
def countOccurrences (text kw : Str) : Nat :=
  let tn := lowerStr (normalizeSpace text)
  let kn := lowerStr (normalizeSpace kw)
  if kn = [] then 0
  else if !kn.contains ' ' && pyIsAlnum kn then countWordBoundary kn tn
  else pyCount kn tn

/-- `_top_n_indices(values, n)`.  Python's `sorted` is stable, so with
`reverse=True` the result is the unique permutation of
`range(len(values))` sorted by value descending with ties by ascending
original index; `topRel` is that total order on indices. -/
def topRel (v : List Nat) (i j : Nat) : Prop :=
  v.getD j 0 < v.getD i 0 ∨ (v.getD i 0 = v.getD j 0 ∧ i ≤ j)

instance (v : List Nat) : DecidableRel (topRel v) := fun i j => by
  unfold topRel; exact inferInstance

def topNIndices (v : List Nat) (n : Nat) : List Nat :=
  (List.insertionSort (topRel v) (List.range v.length)).take n

/-! ## Repository (`load_all_papers`) -/

/-- `load_all_papers`, with the file system modelled as a partial map
from the index `i` of `paper{i}.txt` to its content.  The source appends
`None` (after printing a diagnostic) for a missing file and filters the
`None`s out at the end. -/
def loadAllPapers (fs : Nat → Option Str) : List PaperR :=
  let papers : List (Option PaperR) :=
    ((List.range 10).map (· + 1)).map (fun i => (fs i).map loadPaperContent)
  papers.filterMap id

/-- The indices reported as missing (`Warning: ... not found`). -/
def missingFiles (fs : Nat → Option Str) : List Nat :=
  ((List.range 10).map (· + 1)).filter (fun i => (fs i).isNone)

/-! ## Spec-side definitions and canonical test inputs -/

/-- A canonical labeled-format `Title:` line for a title `X`. -/
def lineTitle (X : Str) : Str := titleTag ++ ' ' :: X

/-- A canonical labeled-format `Authors:` line for two authors. -/
def lineAuthors (A B : Str) : Str := authorsTag ++ ' ' :: (A ++ ',' :: ' ' :: B)

/-- A canonical labeled-format `Category:` line. -/
def lineCategory (C : Str) : Str := categoryTag ++ ' ' :: C

/-- A canonical labeled-format `Abstract:` line. -/
def lineAbstract (D : Str) : Str := abstractTag ++ ' ' :: D

/-- The part of a canonical labeled document before the `Abstract:`
marker. -/
def mkPre (X A B C : Str) : Str :=
  lineTitle X ++ '\n' :: (lineAuthors A B ++ '\n' :: (lineCategory C ++ ['\n']))

/-- A canonical labeled document with all four fields. -/
def mkLabeledContent (X A B C D : Str) : Str := mkPre X A B C ++ lineAbstract D

/-- A canonical labeled document with no `Abstract:` marker. -/
def mkLabeledNoAbs (X A B C : Str) : Str :=
  lineTitle X ++ '\n' :: (lineAuthors A B ++ '\n' :: lineCategory C)

/-- Modelled from the spec's words for C1: everything after the first
occurrence of `pat` (empty when `pat` does not occur). -/
def afterFirst (pat : Str) : Str → Str
  | [] => []
  | c :: rest =>
    if pat.isPrefixOf (c :: rest) then rest.drop (pat.length - 1)
    else afterFirst pat rest

/-- Modelled from the spec's words for C5: the abstract is the non-blank
stripped lines following line `i`, up to but excluding the first stop
heading, joined by single spaces and trimmed. -/
def specAbstract (lines : List Str) (i : Nat) : Str :=
  pyStrip (joinSpace
    ((((lines.drop (i + 1)).map pyStrip).takeWhile (fun s => !isStopHeading s)).filter
      (fun s => s ≠ [])))

/-- The stopping condition claimed by C2: a blank line, or a line that
matches neither collection condition and mentions an affiliation word. -/
def stopAuthorCond (s : Str) : Bool :=
  s == [] || (!markerCond s && !oneStarCond s && affilCond s)

/-- The author-entry residue of C6: the entry after trimming whitespace
and stripping digits and the footnote markers `*`, `★`. -/
def authorResidue (a : Str) : Str := pyStrip (a.filter (fun c => !authorMark c))

/-- C1 counterexample input: a labeled document whose abstract text
itself contains the `Abstract:` marker. -/
def exC1 : Str := "Title: T\nAbstract: one Abstract: two".toList

/-- C2 counterexample input: author lines in which the middle line
matches neither collection condition and is not an affiliation line. -/
def exC2 : List Str :=
  ["Ann Bee1".toList, "plain middle line".toList, "Cee Dee2".toList]

/-- C3 witness input: `Title:` appears only on line 21 (index 20). -/
def exC3 : Str :=
  "\n\n\n\n\n\n\n\n\n\n\n\n\n\n\n\n\n\n\n\nTitle: LATE".toList

/-- C5 witness input. -/
def exC5 : List Str :=
  ["Galaxy Survey Data".toList, "ABSTRACT".toList, "First body line.".toList,
   "Second body line.".toList, "1 INTRODUCTION".toList, "Intro text.".toList]

/-- C6 counterexample input: a labeled document whose only author entry
is the digit `1`. -/
def exC6 : Str := "Title: T\nAuthors: 1".toList

/-- C8 witness file system: `paper1.txt`–`paper3.txt` exist with
distinct contents, all later files are missing. -/
def exC8fs : Nat → Option Str := fun i =>
  if i = 1 then some ("Title: First".toList)
  else if i = 2 then some ("Title: Second".toList)
  else if i = 3 then some ("Title: Third".toList)
  else none

/-- C9 witness paper. -/
def exC9 : PaperR := ⟨"Galaxy Formation".toList, [], [], []⟩

/-! ## Facts about the string primitives -/

lemma prefix_append_iff_of_le {p a : Str} (x : Str) (h : p.length ≤ a.length) :
    p <+: a ++ x ↔ p <+: a := by
  constructor
  · intro hp
    have h1 : p = (a ++ x).take p.length := List.prefix_iff_eq_take.mp hp
    rw [List.take_append_of_le_length h] at h1
    exact List.prefix_iff_eq_take.mpr h1
  · intro hp
    exact hp.trans (List.prefix_append a x)

lemma isPrefixOf_append_of_le {p a : Str} (x : Str) (h : p.length ≤ a.length) :
    List.isPrefixOf p (a ++ x) = List.isPrefixOf p a := by
  by_cases hp : p <+: a
  · rw [List.isPrefixOf_iff_prefix.mpr (hp.trans (List.prefix_append a x)),
      List.isPrefixOf_iff_prefix.mpr hp]
  · have h1 : List.isPrefixOf p (a ++ x) = false :=
      Bool.eq_false_iff.mpr fun hc =>
        hp ((prefix_append_iff_of_le x h).mp (List.isPrefixOf_iff_prefix.mp hc))
    have h2 : List.isPrefixOf p a = false :=
      Bool.eq_false_iff.mpr fun hc => hp (List.isPrefixOf_iff_prefix.mp hc)
    rw [h1, h2]

lemma isPrefixOf_false_of_take_ne {p a : Str} (x : Str) {k : Nat} (hka : k ≤ a.length)
    (hkp : k ≤ p.length) (hne : p.take k ≠ a.take k) :
    List.isPrefixOf p (a ++ x) = false := by
  refine Bool.eq_false_iff.mpr fun hc => hne ?_
  have h1 : p = (a ++ x).take p.length :=
    List.prefix_iff_eq_take.mp (List.isPrefixOf_iff_prefix.mp hc)
  calc p.take k = ((a ++ x).take p.length).take k := by rw [← h1]
    _ = (a ++ x).take (min k p.length) := List.take_take k p.length _
    _ = (a ++ x).take k := by rw [Nat.min_eq_left hkp]
    _ = a.take k := List.take_append_of_le_length hka

lemma containsSub_nil_left (s : Str) : containsSub [] s = true := by
  cases s with
  | nil => rfl
  | cons c rest => simp [containsSub, List.isPrefixOf]

lemma containsSub_false_no_occ {pat s : Str} (hne : pat ≠ [])
    (h : containsSub pat s = false) : ∀ t, t <:+ s → List.isPrefixOf pat t = false := by
  induction s with
  | nil =>
    intro t ht
    have ht0 : t = [] := List.suffix_nil.mp ht
    subst ht0
    cases pat with
    | nil => exact absurd rfl hne
    | cons c p => rfl
  | cons c rest ih =>
    intro t ht
    rw [containsSub] at h
    have h1 := (Bool.or_eq_false_iff.mp h).1
    have h2 := (Bool.or_eq_false_iff.mp h).2
    rcases List.suffix_cons_iff.mp ht with h3 | h3
    · subst h3; exact h1
    · exact ih h2 t h3

lemma mem_of_containsSub {pat s : Str} (h : containsSub pat s = true) :
    ∀ c ∈ pat, c ∈ s := by
  induction s with
  | nil =>
    intro c hc
    cases pat with
    | nil => simp at hc
    | cons d p => simp [containsSub, List.isPrefixOf] at h
  | cons d rest ih =>
    intro c hc
    rw [containsSub] at h
    rcases Bool.or_eq_true_iff.mp h with h1 | h1
    · exact ((List.isPrefixOf_iff_prefix.mp h1).sublist).mem hc
    · exact List.mem_cons_of_mem d (ih h1 c hc)

lemma containsSub_false_of_char {pat s : Str} {c : Char} (hc : c ∈ pat) (hs : c ∉ s) :
    containsSub pat s = false :=
  Bool.eq_false_iff.mpr fun h => hs (mem_of_containsSub h c hc)

lemma containsSub_sandwich (pat a b : Str) : containsSub pat (a ++ pat ++ b) = true := by
  induction a with
  | nil =>
    cases pat with
    | nil => simpa using containsSub_nil_left b
    | cons c p =>
      rw [List.nil_append, List.cons_append, containsSub]
      refine Bool.or_eq_true_iff.mpr (Or.inl ?_)
      rw [← List.cons_append, List.isPrefixOf_iff_prefix]
      exact List.prefix_append (c :: p) b
  | cons d a' ih =>
    rw [List.cons_append, List.cons_append, containsSub, ih, Bool.or_true]

/-! ### splitOnSub -/

lemma splitOnGo_nil (pat : Str) (skip : Nat) (acc : Str) :
    splitOnGo pat [] skip acc = [acc.reverse] := rfl

lemma splitOnGo_succ (pat : Str) (c : Char) (s : Str) (k : Nat) (acc : Str) :
    splitOnGo pat (c :: s) (k + 1) acc = splitOnGo pat s k acc := rfl

lemma splitOnGo_zero_cons (pat : Str) (c : Char) (s : Str) (acc : Str) :
    splitOnGo pat (c :: s) 0 acc =
      if !pat.isEmpty && pat.isPrefixOf (c :: s) then
        acc.reverse :: splitOnGo pat s (pat.length - 1) []
      else splitOnGo pat s 0 (c :: acc) := rfl

lemma splitOnGo_skip (pat : Str) (x y : Str) (acc : Str) :
    splitOnGo pat (x ++ y) x.length acc = splitOnGo pat y 0 acc := by
  induction x with
  | nil => rfl
  | cons c x' ih => rw [List.cons_append, List.length_cons, splitOnGo_succ, ih]

lemma splitOnGo_glue {pat : Str} (hpat : pat ≠ []) {a b : Str}
    (h : ∀ t, t <:+ a → t ≠ [] → List.isPrefixOf pat (t ++ pat ++ b) = false) (acc : Str) :
    splitOnGo pat (a ++ pat ++ b) 0 acc = (acc.reverse ++ a) :: splitOnSub pat b := by
  induction a generalizing acc with
  | nil =>
    obtain ⟨c, p, rfl⟩ : ∃ c p, pat = c :: p := by
      cases pat with
      | nil => exact absurd rfl hpat
      | cons c p => exact ⟨c, p, rfl⟩
    rw [List.nil_append, List.cons_append, splitOnGo_zero_cons, if_pos, List.append_nil]
    · congr 1
      have hlen : (c :: p).length - 1 = p.length := by simp
      rw [hlen, splitOnGo_skip]
      rfl
    · refine Bool.and_eq_true_iff.mpr ⟨by simp, ?_⟩
      rw [← List.cons_append, List.isPrefixOf_iff_prefix]
      exact List.prefix_append (c :: p) b
  | cons d a' ih =>
    rw [List.cons_append, List.cons_append, splitOnGo_zero_cons, if_neg]
    · rw [ih (fun t ht hne => h t (ht.trans (List.suffix_cons d a')) hne) (d :: acc)]
      congr 1
      simp
    · have hfalse := h (d :: a') (List.suffix_refl _) (by simp)
      rw [List.cons_append, List.cons_append] at hfalse
      rw [hfalse, Bool.and_false]
      simp

lemma splitOnGo_no_occ {pat : Str} {s : Str}
    (h : ∀ t, t <:+ s → List.isPrefixOf pat t = false) (acc : Str) :
    splitOnGo pat s 0 acc = [acc.reverse ++ s] := by
  induction s generalizing acc with
  | nil => rw [splitOnGo_nil, List.append_nil]
  | cons c rest ih =>
    rw [splitOnGo_zero_cons, if_neg]
    · rw [ih (fun t ht => h t (ht.trans (List.suffix_cons c rest))) (c :: acc)]
      congr 1
      simp
    · rw [h (c :: rest) (List.suffix_refl _), Bool.and_false]
      simp

lemma splitOnSub_no_occ {pat : Str} {s : Str}
    (h : ∀ t, t <:+ s → List.isPrefixOf pat t = false) : splitOnSub pat s = [s] := by
  have := splitOnGo_no_occ h []
  simpa [splitOnSub] using this

/-! ### removeAll -/

lemma removeGo_succ (pat : Str) (c : Char) (s : Str) (k : Nat) :
    removeGo pat (c :: s) (k + 1) = removeGo pat s k := rfl

lemma removeGo_zero_cons (pat : Str) (c : Char) (s : Str) :
    removeGo pat (c :: s) 0 =
      if !pat.isEmpty && pat.isPrefixOf (c :: s) then removeGo pat s (pat.length - 1)
      else c :: removeGo pat s 0 := rfl

lemma removeGo_skip (pat : Str) (x y : Str) :
    removeGo pat (x ++ y) x.length = removeGo pat y 0 := by
  induction x with
  | nil => rfl
  | cons c x' ih => rw [List.cons_append, List.length_cons, removeGo_succ, ih]

lemma removeAll_cons_pat {pat : Str} (hpat : pat ≠ []) (rest : Str) :
    removeAll pat (pat ++ rest) = removeAll pat rest := by
  obtain ⟨c, p, rfl⟩ : ∃ c p, pat = c :: p := by
    cases pat with
    | nil => exact absurd rfl hpat
    | cons c p => exact ⟨c, p, rfl⟩
  unfold removeAll
  rw [List.cons_append, removeGo_zero_cons, if_pos]
  · have hlen : (c :: p).length - 1 = p.length := by simp
    rw [hlen, removeGo_skip]
  · refine Bool.and_eq_true_iff.mpr ⟨by simp, ?_⟩
    rw [← List.cons_append, List.isPrefixOf_iff_prefix]
    exact List.prefix_append (c :: p) rest

lemma removeAll_no_occ {pat s : Str}
    (h : ∀ t, t <:+ s → List.isPrefixOf pat t = false) : removeAll pat s = s := by
  unfold removeAll
  induction s with
  | nil => rfl
  | cons c rest ih =>
    rw [removeGo_zero_cons, if_neg]
    · rw [ih (fun t ht => h t (ht.trans (List.suffix_cons c rest)))]
    · rw [h (c :: rest) (List.suffix_refl _), Bool.and_false]
      simp

/-! ### no-border patterns have no straddling occurrence -/

/-- `pat` cannot overlap itself: no non-trivial border. -/
def noBorder (pat : Str) : Prop :=
  ∀ j, j < pat.length → 0 < j → pat.drop j ≠ pat.take (pat.length - j)

instance (pat : Str) : Decidable (noBorder pat) := by
  unfold noBorder
  exact Nat.decidableBallLT _ _

lemma no_early_match {pat : Str} (hpat : pat ≠ []) (hnb : noBorder pat) {a : Str} (b : Str)
    (hnc : containsSub pat a = false) :
    ∀ t, t <:+ a → t ≠ [] → List.isPrefixOf pat (t ++ pat ++ b) = false := by
  intro t ht htne
  refine Bool.eq_false_iff.mpr fun hc => ?_
  have hp : pat <+: t ++ pat ++ b := List.isPrefixOf_iff_prefix.mp hc
  by_cases hlen : pat.length ≤ t.length
  · have hpt : pat <+: t := by
      rw [List.append_assoc] at hp
      exact (prefix_append_iff_of_le _ hlen).mp hp
    have hfalse := containsSub_false_no_occ hpat hnc t ht
    rw [List.isPrefixOf_iff_prefix.mpr hpt] at hfalse
    exact Bool.true_eq_false.mp hfalse
  · push_neg at hlen
    have hj0 : 0 < t.length := List.length_pos.mpr htne
    obtain ⟨u, hu⟩ := hp
    have h2 : pat.drop t.length ++ u = pat ++ b := by
      have h3 := congrArg (List.drop t.length) hu
      rw [List.drop_append_of_le_length (le_of_lt hlen), List.append_assoc,
        List.drop_left] at h3
      exact h3
    have hpre2 : pat.drop t.length <+: pat ++ b := ⟨u, h2⟩
    have hlen2 : (pat.drop t.length).length ≤ pat.length := by
      rw [List.length_drop]; omega
    have hpre3 : pat.drop t.length <+: pat := (prefix_append_iff_of_le _ hlen2).mp hpre2
    have heq := List.prefix_iff_eq_take.mp hpre3
    rw [List.length_drop] at heq
    exact hnb t.length hlen hj0 heq

/-! ### pyStrip -/

lemma dropWhile_cons_of_neg {p : Char → Bool} {c : Char} (h : p c = false) (l : Str) :
    List.dropWhile p (c :: l) = c :: l := by
  rw [List.dropWhile_cons, h]
  simp

lemma head_false_of_dropWhile_eq {p : Char → Bool} {l : Str} {c : Char} {t : Str}
    (h : List.dropWhile p l = c :: t) : p c = false := by
  induction l with
  | nil => simp [List.dropWhile] at h
  | cons a l' ih =>
    rw [List.dropWhile_cons] at h
    by_cases hpa : p a = true
    · rw [if_pos hpa] at h
      exact ih h
    · rw [if_neg hpa] at h
      injection h with h1 _
      subst h1
      exact Bool.eq_false_iff.mpr hpa

lemma dropWhile_idem (p : Char → Bool) (l : Str) :
    List.dropWhile p (List.dropWhile p l) = List.dropWhile p l := by
  cases h : List.dropWhile p l with
  | nil => rfl
  | cons c t => exact dropWhile_cons_of_neg (head_false_of_dropWhile_eq h) t

lemma trimmed_iff {s : Str} :
    pyStrip s = s ↔
      List.dropWhile pySpace s = s ∧ List.dropWhile pySpace s.reverse = s.reverse := by
  constructor
  · intro h
    have h1 : (List.dropWhile pySpace s).length ≤ s.length :=
      (List.dropWhile_suffix pySpace).sublist.length_le
    have h2 : (pyStrip s).length ≤ (List.dropWhile pySpace s).length := by
      unfold pyStrip
      calc ((((s.dropWhile pySpace).reverse.dropWhile pySpace)).reverse).length
          = ((s.dropWhile pySpace).reverse.dropWhile pySpace).length :=
            List.length_reverse _
        _ ≤ (s.dropWhile pySpace).reverse.length :=
            (List.dropWhile_suffix pySpace).sublist.length_le
        _ = (s.dropWhile pySpace).length := List.length_reverse _
    rw [h] at h2
    have hdw : List.dropWhile pySpace s = s :=
      (List.dropWhile_suffix pySpace).sublist.eq_of_length (Nat.le_antisymm h1 h2)
    refine ⟨hdw, ?_⟩
    unfold pyStrip at h
    rw [hdw] at h
    have := congrArg List.reverse h
    rwa [List.reverse_reverse] at this
  · intro ⟨h1, h2⟩
    unfold pyStrip
    rw [h1, h2, List.reverse_reverse]

lemma trimmed_last_cons {s : Str} (h : pyStrip s = s) (hne : s ≠ []) :
    ∃ d t, s.reverse = d :: t ∧ pySpace d = false := by
  have h2 := (trimmed_iff.mp h).2
  cases hr : s.reverse with
  | nil =>
    have : s = [] := by
      have := congrArg List.reverse hr
      simpa using this
    exact absurd this hne
  | cons d t =>
    rw [hr] at h2
    exact ⟨d, t, rfl, head_false_of_dropWhile_eq h2⟩

lemma pyStrip_sandwich {c : Char} (hc : pySpace c = false) (m : Str) {X : Str}
    (hX : pyStrip X = X) (hne : X ≠ []) : pyStrip ((c :: m) ++ X) = (c :: m) ++ X := by
  apply trimmed_iff.mpr
  constructor
  · rw [List.cons_append]
    exact dropWhile_cons_of_neg hc _
  · obtain ⟨d, t, hdt, hd⟩ := trimmed_last_cons hX hne
    rw [List.reverse_append, hdt, List.cons_append]
    exact dropWhile_cons_of_neg hd _

lemma pyStrip_cons_space {c : Char} (hc : pySpace c = true) (s : Str) :
    pyStrip (c :: s) = pyStrip s := by
  unfold pyStrip
  rw [List.dropWhile_cons, if_pos hc]

lemma pyStrip_idem (s : Str) : pyStrip (pyStrip s) = pyStrip s := by
  apply trimmed_iff.mpr
  constructor
  · cases h : pyStrip s with
    | nil => rfl
    | cons c t =>
      refine dropWhile_cons_of_neg ?_ t
      have hpre : pyStrip s <+: List.dropWhile pySpace s := by
        have h0 := List.reverse_prefix.mpr
          (List.dropWhile_suffix (l := (List.dropWhile pySpace s).reverse) pySpace)
        rw [List.reverse_reverse] at h0
        exact h0
      rw [h] at hpre
      obtain ⟨u, hu⟩ := hpre
      rw [List.cons_append] at hu
      exact head_false_of_dropWhile_eq hu.symm
  · show List.dropWhile pySpace (pyStrip s).reverse = (pyStrip s).reverse
    unfold pyStrip
    rw [List.reverse_reverse]
    exact dropWhile_idem pySpace _

lemma pyStrip_sublist (s : Str) : List.Sublist (pyStrip s) s := by
  unfold pyStrip
  have s1 : List.Sublist ((List.dropWhile pySpace s).reverse.dropWhile pySpace)
      (List.dropWhile pySpace s).reverse := (List.dropWhile_suffix _).sublist
  have s2 := s1.reverse
  rw [List.reverse_reverse] at s2
  exact s2.trans (List.dropWhile_suffix _).sublist

lemma mem_pyStrip {c : Char} {s : Str} (h : c ∈ pyStrip s) : c ∈ s :=
  (pyStrip_sublist s).mem h

lemma pyStrip_ne_nil_of_trimmed {s : Str} (h : pyStrip s = s) (hne : s ≠ []) :
    pyStrip s ≠ [] := by
  rw [h]; exact hne

/-! ### linesOf -/

lemma no_occ_single {c : Char} {s : Str} (hc : c ∉ s) :
    ∀ t, t <:+ s → List.isPrefixOf [c] t = false := by
  intro t ht
  cases t with
  | nil => rfl
  | cons d t' =>
    have hd : d ∈ s := ht.sublist.mem (List.mem_cons_self d t')
    have hcd : (c == d) = false := beq_eq_false_iff_ne.mpr fun h => hc (h ▸ hd)
    simp [List.isPrefixOf, hcd]

lemma linesOf_append {a : Str} (ha : '\n' ∉ a) (b : Str) :
    linesOf (a ++ '\n' :: b) = a :: linesOf b := by
  have hocc : ∀ t, t <:+ a → t ≠ [] →
      List.isPrefixOf ['\n'] (t ++ ['\n'] ++ b) = false := by
    intro t ht htne
    cases t with
    | nil => exact absurd rfl htne
    | cons d t' =>
      have hd : d ∈ a := ht.sublist.mem (List.mem_cons_self d t')
      have hcd : (('\n' : Char) == d) = false := beq_eq_false_iff_ne.mpr fun h => ha (h ▸ hd)
      simp [List.isPrefixOf, hcd]
  have h := splitOnGo_glue (show (['\n'] : Str) ≠ [] by simp) hocc []
  show splitOnGo ['\n'] (a ++ '\n' :: b) 0 [] = a :: linesOf b
  rw [show a ++ '\n' :: b = a ++ ['\n'] ++ b by simp, h]
  simp [linesOf, splitOnSub]

lemma linesOf_single {a : Str} (ha : '\n' ∉ a) : linesOf a = [a] := by
  have := splitOnGo_no_occ (no_occ_single ha) []
  simpa [linesOf, splitOnSub] using this

/-! ### Evaluation of the labeled lines -/

lemma pySpace_char_T : pySpace 'T' = false := by decide
lemma pySpace_char_A : pySpace 'A' = false := by decide
lemma pySpace_char_C : pySpace 'C' = false := by decide
lemma pySpace_space : pySpace ' ' = true := by decide

lemma lineTitle_strip {X : Str} (hX : pyStrip X = X) (hne : X ≠ []) :
    pyStrip (lineTitle X) = lineTitle X := by
  have h := pyStrip_sandwich (c := 'T') (by decide) ("itle: ".toList) hX hne
  exact h

lemma lineCategory_strip {C : Str} (hC : pyStrip C = C) (hne : C ≠ []) :
    pyStrip (lineCategory C) = lineCategory C := by
  have h := pyStrip_sandwich (c := 'C') (by decide) ("ategory: ".toList) hC hne
  exact h

lemma lineAuthors_strip {A B : Str} (hB : pyStrip B = B) (hne : B ≠ []) :
    pyStrip (lineAuthors A B) = lineAuthors A B := by
  have h := pyStrip_sandwich (c := 'A') (by decide)
    ("uthors: ".toList ++ A ++ [',', ' ']) hB hne
  rw [show ('A' :: ("uthors: ".toList ++ A ++ [',', ' '])) ++ B = lineAuthors A B by
    simp [lineAuthors, authorsTag]] at h
  exact h

lemma lineAbstract_strip {E : Str} (hE : pyStrip E = E) (hne : E ≠ []) :
    pyStrip (lineAbstract E) = lineAbstract E := by
  have h := pyStrip_sandwich (c := 'A') (by decide) ("bstract: ".toList) hE hne
  exact h

lemma trimmed_head_false {c : Char} {A : Str} (hA : pyStrip (c :: A) = c :: A) :
    pySpace c = false :=
  head_false_of_dropWhile_eq (trimmed_iff.mp hA).1

lemma trimmed_append_trimmed {A B : Str} (hA : pyStrip A = A) (hAne : A ≠ [])
    (mid : Str) (hB : pyStrip B = B) (hBne : B ≠ []) :
    pyStrip (A ++ mid ++ B) = A ++ mid ++ B := by
  obtain ⟨c, A', rfl⟩ : ∃ c A', A = c :: A' := by
    cases A with
    | nil => exact absurd rfl hAne
    | cons c A' => exact ⟨c, A', rfl⟩
  have hc : pySpace c = false := trimmed_head_false hA
  have h := pyStrip_sandwich hc (A' ++ mid) hB hBne
  rw [show (c :: (A' ++ mid)) ++ B = c :: A' ++ mid ++ B by simp] at h
  exact h

lemma splitOn_single_append {c : Char} {a : Str} (ha : c ∉ a) (b : Str) :
    splitOnSub [c] (a ++ c :: b) = a :: splitOnSub [c] b := by
  have hocc : ∀ t, t <:+ a → t ≠ [] →
      List.isPrefixOf [c] (t ++ [c] ++ b) = false := by
    intro t ht htne
    cases t with
    | nil => exact absurd rfl htne
    | cons d t' =>
      have hd : d ∈ a := ht.sublist.mem (List.mem_cons_self d t')
      have hcd : (c == d) = false := beq_eq_false_iff_ne.mpr fun h => ha (h ▸ hd)
      simp [List.isPrefixOf, hcd]
  have h := splitOnGo_glue (show [c] ≠ ([] : Str) by simp) hocc []
  show splitOnGo [c] (a ++ c :: b) 0 [] = a :: splitOnSub [c] b
  rw [show a ++ c :: b = a ++ [c] ++ b by simp, h]
  simp [splitOnSub]

lemma splitOn_single_free {c : Char} {s : Str} (hc : c ∉ s) :
    splitOnSub [c] s = [s] :=
  splitOnSub_no_occ (no_occ_single hc)

lemma removeAll_tag {tag rest : Str} (htag : tag ≠ []) {c : Char} (hc : c ∈ tag)
    (hrest : c ∉ rest) : removeAll tag (tag ++ rest) = rest := by
  rw [removeAll_cons_pat htag,
    removeAll_no_occ (containsSub_false_no_occ htag (containsSub_false_of_char hc hrest))]

lemma step_lineTitle {X : Str} (hX : pyStrip X = X) (hne : X ≠ []) (hc : ':' ∉ X)
    (acc : Str × List Str × Str) :
    labeledStep acc (lineTitle X) = (X, acc.2.1, acc.2.2) := by
  have hpos : titleTag.isPrefixOf (pyStrip (lineTitle X)) = true := by
    rw [lineTitle_strip hX hne,
      show lineTitle X = titleTag ++ (' ' :: X) from rfl,
      isPrefixOf_append_of_le _ (le_refl _)]
    decide
  have hrem : pyStrip (removeAll titleTag (pyStrip (lineTitle X))) = X := by
    rw [lineTitle_strip hX hne,
      show lineTitle X = titleTag ++ (' ' :: X) from rfl,
      removeAll_tag (by decide) (c := ':') (by decide)
        (by
          intro h
          rcases List.mem_cons.mp h with h | h
          · exact absurd h (by decide)
          · exact hc h),
      pyStrip_cons_space (by decide), hX]
  simp only [labeledStep, hpos, if_true, hrem]

lemma step_lineAuthors {A B : Str} (hA : pyStrip A = A) (hAne : A ≠ [])
    (hB : pyStrip B = B) (hBne : B ≠ []) (hcA : ':' ∉ A) (hcB : ':' ∉ B)
    (hmA : ',' ∉ A) (hmB : ',' ∉ B) (acc : Str × List Str × Str) :
    labeledStep acc (lineAuthors A B) = (acc.1, [A, B], acc.2.2) := by
  have hstrip := lineAuthors_strip (A := A) hB hBne
  have hneg1 : titleTag.isPrefixOf (pyStrip (lineAuthors A B)) = false := by
    rw [hstrip, show lineAuthors A B = authorsTag ++ (' ' :: (A ++ ',' :: ' ' :: B)) from rfl]
    exact isPrefixOf_false_of_take_ne _ (k := 1) (by decide) (by decide) (by decide)
  have hpos : authorsTag.isPrefixOf (pyStrip (lineAuthors A B)) = true := by
    rw [hstrip, show lineAuthors A B = authorsTag ++ (' ' :: (A ++ ',' :: ' ' :: B)) from rfl,
      isPrefixOf_append_of_le _ (le_refl _)]
    decide
  have hrem : pyStrip (removeAll authorsTag (pyStrip (lineAuthors A B)))
      = A ++ ',' :: ' ' :: B := by
    have hmid : pyStrip (A ++ ',' :: ' ' :: B) = A ++ ',' :: ' ' :: B := by
      have := trimmed_append_trimmed hA hAne [',', ' '] hB hBne
      rw [show A ++ [',', ' '] ++ B = A ++ ',' :: ' ' :: B by simp] at this
      exact this
    rw [hstrip, show lineAuthors A B = authorsTag ++ (' ' :: (A ++ ',' :: ' ' :: B)) from rfl,
      removeAll_tag (by decide) (c := ':') (by decide)
        (by
          intro h
          rcases List.mem_cons.mp h with h | h
          · exact absurd h (by decide)
          · rcases List.mem_append.mp h with h | h
            · exact hcA h
            · rcases List.mem_cons.mp h with h | h
              · exact absurd h (by decide)
              · rcases List.mem_cons.mp h with h | h
                · exact absurd h (by decide)
                · exact hcB h),
      pyStrip_cons_space (by decide), hmid]
  have hsplit : splitOnSub [','] (A ++ ',' :: ' ' :: B) = [A, ' ' :: B] := by
    rw [splitOn_single_append hmA, splitOn_single_free
      (by
        intro h
        rcases List.mem_cons.mp h with h | h
        · exact absurd h (by decide)
        · exact hmB h)]
  simp only [labeledStep, hneg1, hpos, if_true, hrem, hsplit, Bool.false_eq_true, if_false,
    List.map_cons, List.map_nil, pyStrip_cons_space pySpace_space, hA, hB, List.filter]
  simp [hAne, hBne]

lemma step_lineCategory {C : Str} (hC : pyStrip C = C) (hne : C ≠ []) (hc : ':' ∉ C)
    (acc : Str × List Str × Str) :
    labeledStep acc (lineCategory C) = (acc.1, acc.2.1, C) := by
  have hstrip := lineCategory_strip hC hne
  have hneg1 : titleTag.isPrefixOf (pyStrip (lineCategory C)) = false := by
    rw [hstrip, show lineCategory C = categoryTag ++ (' ' :: C) from rfl]
    exact isPrefixOf_false_of_take_ne _ (k := 1) (by decide) (by decide) (by decide)
  have hneg2 : authorsTag.isPrefixOf (pyStrip (lineCategory C)) = false := by
    rw [hstrip, show lineCategory C = categoryTag ++ (' ' :: C) from rfl]
    exact isPrefixOf_false_of_take_ne _ (k := 1) (by decide) (by decide) (by decide)
  have hpos : categoryTag.isPrefixOf (pyStrip (lineCategory C)) = true := by
    rw [hstrip, show lineCategory C = categoryTag ++ (' ' :: C) from rfl,
      isPrefixOf_append_of_le _ (le_refl _)]
    decide
  have hrem : pyStrip (removeAll categoryTag (pyStrip (lineCategory C))) = C := by
    rw [hstrip, show lineCategory C = categoryTag ++ (' ' :: C) from rfl,
      removeAll_tag (by decide) (c := ':') (by decide)
        (by
          intro h
          rcases List.mem_cons.mp h with h | h
          · exact absurd h (by decide)
          · exact hc h),
      pyStrip_cons_space (by decide), hC]
  simp only [labeledStep, hneg1, hneg2, hpos, if_true, hrem, Bool.false_eq_true, if_false]

lemma step_lineAbstract {E : Str} (hE : pyStrip (lineAbstract E) = lineAbstract E)
    (acc : Str × List Str × Str) :
    labeledStep acc (lineAbstract E) = acc := by
  have hneg1 : titleTag.isPrefixOf (pyStrip (lineAbstract E)) = false := by
    rw [hE, show lineAbstract E = abstractTag ++ (' ' :: E) from rfl]
    exact isPrefixOf_false_of_take_ne _ (k := 1) (by decide) (by decide) (by decide)
  have hneg2 : authorsTag.isPrefixOf (pyStrip (lineAbstract E)) = false := by
    rw [hE, show lineAbstract E = abstractTag ++ (' ' :: E) from rfl]
    exact isPrefixOf_false_of_take_ne _ (k := 2) (by decide) (by decide) (by decide)
  have hneg3 : categoryTag.isPrefixOf (pyStrip (lineAbstract E)) = false := by
    rw [hE, show lineAbstract E = abstractTag ++ (' ' :: E) from rfl]
    exact isPrefixOf_false_of_take_ne _ (k := 1) (by decide) (by decide) (by decide)
  simp only [labeledStep, hneg1, hneg2, hneg3, Bool.false_eq_true, if_false]

lemma not_mem_append {c : Char} {a b : Str} (ha : c ∉ a) (hb : c ∉ b) :
    c ∉ a ++ b := fun h => (List.mem_append.mp h).elim ha hb

lemma not_mem_cons {c d : Char} (hcd : c ≠ d) {b : Str} (hb : c ∉ b) :
    c ∉ d :: b := fun h => (List.mem_cons.mp h).elim hcd hb

lemma lineTitle_tag_pos {X : Str} (hX : pyStrip X = X) (hne : X ≠ []) :
    titleTag.isPrefixOf (pyStrip (lineTitle X)) = true := by
  rw [lineTitle_strip hX hne,
    show lineTitle X = titleTag ++ (' ' :: X) from rfl,
    isPrefixOf_append_of_le _ (le_refl _)]
  decide

lemma linesOf_mkLabeled {X A B C E : Str} (hXn : '\n' ∉ X) (hAn : '\n' ∉ A)
    (hBn : '\n' ∉ B) (hCn : '\n' ∉ C) (hEn : '\n' ∉ E) :
    linesOf (mkPre X A B C ++ lineAbstract E) =
      [lineTitle X, lineAuthors A B, lineCategory C, lineAbstract E] := by
  have h1 : '\n' ∉ lineTitle X :=
    not_mem_append (by decide) (not_mem_cons (by decide) hXn)
  have h2 : '\n' ∉ lineAuthors A B :=
    not_mem_append (by decide) (not_mem_cons (by decide)
      (not_mem_append hAn (not_mem_cons (by decide) (not_mem_cons (by decide) hBn))))
  have h3 : '\n' ∉ lineCategory C :=
    not_mem_append (by decide) (not_mem_cons (by decide) hCn)
  have h4 : '\n' ∉ lineAbstract E :=
    not_mem_append (by decide) (not_mem_cons (by decide) hEn)
  rw [show mkPre X A B C ++ lineAbstract E =
      lineTitle X ++ '\n' ::
        (lineAuthors A B ++ '\n' :: (lineCategory C ++ '\n' :: lineAbstract E)) by
    simp [mkPre, List.append_assoc]]
  rw [linesOf_append h1, linesOf_append h2, linesOf_append h3, linesOf_single h4]

lemma linesOf_mkNoAbs {X A B C : Str} (hXn : '\n' ∉ X) (hAn : '\n' ∉ A)
    (hBn : '\n' ∉ B) (hCn : '\n' ∉ C) :
    linesOf (mkLabeledNoAbs X A B C) =
      [lineTitle X, lineAuthors A B, lineCategory C] := by
  have h1 : '\n' ∉ lineTitle X :=
    not_mem_append (by decide) (not_mem_cons (by decide) hXn)
  have h2 : '\n' ∉ lineAuthors A B :=
    not_mem_append (by decide) (not_mem_cons (by decide)
      (not_mem_append hAn (not_mem_cons (by decide) (not_mem_cons (by decide) hBn))))
  have h3 : '\n' ∉ lineCategory C :=
    not_mem_append (by decide) (not_mem_cons (by decide) hCn)
  rw [show mkLabeledNoAbs X A B C =
      lineTitle X ++ '\n' :: (lineAuthors A B ++ '\n' :: lineCategory C) from rfl]
  rw [linesOf_append h1, linesOf_append h2, linesOf_single h3]

lemma hasLabels_four {X A B C : Str} (hX : pyStrip X = X) (hne : X ≠ []) (l4 : Str) :
    hasLabels [lineTitle X, lineAuthors A B, lineCategory C, l4] = true := by
  have ht : List.take 20 [lineTitle X, lineAuthors A B, lineCategory C, l4]
      = [lineTitle X, lineAuthors A B, lineCategory C, l4] := rfl
  unfold hasLabels
  rw [ht, List.any_cons, lineTitle_tag_pos hX hne, Bool.true_or]

lemma hasLabels_three {X A B C : Str} (hX : pyStrip X = X) (hne : X ≠ []) :
    hasLabels [lineTitle X, lineAuthors A B, lineCategory C] = true := by
  have ht : List.take 20 [lineTitle X, lineAuthors A B, lineCategory C]
      = [lineTitle X, lineAuthors A B, lineCategory C] := rfl
  unfold hasLabels
  rw [ht, List.any_cons, lineTitle_tag_pos hX hne, Bool.true_or]

lemma labeled_fold {X A B C : Str} (hX : pyStrip X = X) (hXne : X ≠ []) (hXc : ':' ∉ X)
    (hA : pyStrip A = A) (hAne : A ≠ []) (hcA : ':' ∉ A) (hmA : ',' ∉ A)
    (hB : pyStrip B = B) (hBne : B ≠ []) (hcB : ':' ∉ B) (hmB : ',' ∉ B)
    (hC : pyStrip C = C) (hCne : C ≠ []) (hcC : ':' ∉ C) (l4 : Str)
    (h4 : ∀ acc, labeledStep acc l4 = acc) :
    [lineTitle X, lineAuthors A B, lineCategory C, l4].foldl labeledStep ([], [], [])
      = (X, [A, B], C) := by
  rw [List.foldl_cons, step_lineTitle hX hXne hXc,
    List.foldl_cons, step_lineAuthors hA hAne hB hBne hcA hcB hmA hmB,
    List.foldl_cons, step_lineCategory hC hCne hcC,
    List.foldl_cons, h4, List.foldl_nil]

lemma labeled_fold_three {X A B C : Str} (hX : pyStrip X = X) (hXne : X ≠ []) (hXc : ':' ∉ X)
    (hA : pyStrip A = A) (hAne : A ≠ []) (hcA : ':' ∉ A) (hmA : ',' ∉ A)
    (hB : pyStrip B = B) (hBne : B ≠ []) (hcB : ':' ∉ B) (hmB : ',' ∉ B)
    (hC : pyStrip C = C) (hCne : C ≠ []) (hcC : ':' ∉ C) :
    [lineTitle X, lineAuthors A B, lineCategory C].foldl labeledStep ([], [], [])
      = (X, [A, B], C) := by
  rw [List.foldl_cons, step_lineTitle hX hXne hXc,
    List.foldl_cons, step_lineAuthors hA hAne hB hBne hcA hcB hmA hmB,
    List.foldl_cons, step_lineCategory hC hCne hcC, List.foldl_nil]

lemma splitOnSub_glue {pat : Str} (hpat : pat ≠ []) {a b : Str}
    (h : ∀ t, t <:+ a → t ≠ [] → List.isPrefixOf pat (t ++ pat ++ b) = false) :
    splitOnSub pat (a ++ pat ++ b) = a :: splitOnSub pat b := by
  have := splitOnGo_glue hpat h []
  simpa [splitOnSub] using this

lemma labeledAbs_single {P D : Str} (hpre : containsSub abstractTag P = false)
    (hD : pyStrip D = D) (hDc : ':' ∉ D) :
    pyStrip (((splitOnSub abstractTag (P ++ (abstractTag ++ ' ' :: D))).drop 1).headD [])
      = D := by
  have hglue := splitOnSub_glue (show abstractTag ≠ [] by decide)
    (no_early_match (by decide) (by decide) (' ' :: D) hpre)
  have hsingle : splitOnSub abstractTag (' ' :: D) = [' ' :: D] :=
    splitOnSub_no_occ (containsSub_false_no_occ (by decide)
      (containsSub_false_of_char (c := ':') (by decide) (not_mem_cons (by decide) hDc)))
  rw [show P ++ (abstractTag ++ ' ' :: D) = P ++ abstractTag ++ (' ' :: D) by
    simp [List.append_assoc], hglue, hsingle]
  simp only [List.drop, List.headD]
  rw [pyStrip_cons_space (by decide), hD]

lemma labeledAbs_double {P D1 D2 : Str} (hpre : containsSub abstractTag P = false)
    (hD1 : pyStrip D1 = D1) (hD1c : ':' ∉ D1) :
    pyStrip
      (((splitOnSub abstractTag
          (P ++ (abstractTag ++ ' ' :: (D1 ++ abstractTag ++ D2)))).drop 1).headD [])
      = D1 := by
  have hglue := splitOnSub_glue (show abstractTag ≠ [] by decide)
    (no_early_match (by decide) (by decide) (' ' :: (D1 ++ abstractTag ++ D2)) hpre)
  have hglue2 := splitOnSub_glue (a := ' ' :: D1) (b := D2) (show abstractTag ≠ [] by decide)
    (no_early_match (by decide) (by decide) D2
      (containsSub_false_of_char (c := ':') (by decide) (not_mem_cons (by decide) hD1c)))
  rw [show P ++ (abstractTag ++ ' ' :: (D1 ++ abstractTag ++ D2))
      = P ++ abstractTag ++ (' ' :: (D1 ++ abstractTag ++ D2)) by
    simp [List.append_assoc], hglue]
  rw [show (' ' :: (D1 ++ abstractTag ++ D2)) = (' ' :: D1) ++ abstractTag ++ D2 by
    simp [List.append_assoc], hglue2]
  simp only [List.drop, List.headD]
  rw [pyStrip_cons_space (by decide), hD1]

lemma labeledExtract_canonical {X A B C D : Str}
    (hX : pyStrip X = X) (hXne : X ≠ []) (hXc : ':' ∉ X)
    (hA : pyStrip A = A) (hAne : A ≠ []) (hcA : ':' ∉ A) (hmA : ',' ∉ A)
    (hB : pyStrip B = B) (hBne : B ≠ []) (hcB : ':' ∉ B) (hmB : ',' ∉ B)
    (hC : pyStrip C = C) (hCne : C ≠ []) (hcC : ':' ∉ C)
    {R : Str} (hD4 : pyStrip (lineAbstract D) = lineAbstract D)
    (habs : pyStrip (((splitOnSub abstractTag
        (mkPre X A B C ++ (abstractTag ++ ' ' :: D))).drop 1).headD []) = R) :
    labeledExtract [lineTitle X, lineAuthors A B, lineCategory C, lineAbstract D]
        (mkLabeledContent X A B C D) = ⟨X, [A, B], C, R⟩ := by
  have hcont : containsSub abstractTag (mkLabeledContent X A B C D) = true := by
    rw [show mkLabeledContent X A B C D = mkPre X A B C ++ abstractTag ++ (' ' :: D) by
      simp [mkLabeledContent, lineAbstract, List.append_assoc]]
    exact containsSub_sandwich _ _ _
  have hfold := labeled_fold hX hXne hXc hA hAne hcA hmA hB hBne hcB hmB hC hCne hcC
    (lineAbstract D) (fun acc => step_lineAbstract hD4 acc)
  simp only [labeledExtract, hfold, hcont, if_true]
  rw [show mkLabeledContent X A B C D = mkPre X A B C ++ (abstractTag ++ ' ' :: D) from rfl,
    habs]

/-! ## Claim C1 -/

/-- C1 (amended): for a canonical labeled document with lines `Title: X`,
`Authors: A, B`, `Category: C` and marker line `Abstract: D`, in which the
marker line carries the first occurrence of `Abstract:`, the extractor
yields title `X`, authors `[A, B]`, category `C`; the abstract is the text
strictly between the first and the second occurrence of `Abstract:` (all
text after the first occurrence when there is no second one), trimmed —
not, as the claim states, everything after the first occurrence; an
absent marker yields an empty abstract. -/
theorem claim1_labeled_extraction
    (X A B C D D1 D2 : Str)
    (hX : pyStrip X = X) (hXne : X ≠ []) (hXn : '\n' ∉ X) (hXc : ':' ∉ X)
    (hA : pyStrip A = A) (hAne : A ≠ []) (hAn : '\n' ∉ A) (hcA : ':' ∉ A) (hmA : ',' ∉ A)
    (hB : pyStrip B = B) (hBne : B ≠ []) (hBn : '\n' ∉ B) (hcB : ':' ∉ B) (hmB : ',' ∉ B)
    (hC : pyStrip C = C) (hCne : C ≠ []) (hCn : '\n' ∉ C) (hcC : ':' ∉ C)
    (hD : pyStrip D = D) (hDne : D ≠ []) (hDn : '\n' ∉ D) (hDc : ':' ∉ D)
    (hD1 : pyStrip D1 = D1) (hD1ne : D1 ≠ []) (hD1n : '\n' ∉ D1) (hD1c : ':' ∉ D1)
    (hD2 : pyStrip D2 = D2) (hD2ne : D2 ≠ []) (hD2n : '\n' ∉ D2)
    (hpre : containsSub abstractTag (mkPre X A B C) = false)
    (hpre3 : containsSub abstractTag (mkLabeledNoAbs X A B C) = false) :
    loadPaperContent (mkLabeledContent X A B C D) = ⟨X, [A, B], C, D⟩
    ∧ loadPaperContent (mkLabeledContent X A B C (D1 ++ abstractTag ++ D2))
        = ⟨X, [A, B], C, D1⟩
    ∧ loadPaperContent (mkLabeledNoAbs X A B C) = ⟨X, [A, B], C, []⟩ := by
  refine ⟨?_, ?_, ?_⟩
  · have hform : mkLabeledContent X A B C D = mkPre X A B C ++ lineAbstract D := rfl
    have habs : pyStrip (((splitOnSub abstractTag
        (mkPre X A B C ++ (abstractTag ++ ' ' :: D))).drop 1).headD []) = D := by
      rw [labeledAbs_single hpre hD hDc]
    have hex := labeledExtract_canonical hX hXne hXc hA hAne hcA hmA hB hBne hcB hmB
      hC hCne hcC (lineAbstract_strip hD hDne) habs
    rw [hform] at hex
    rw [hform]
    simp only [loadPaperContent]
    rw [linesOf_mkLabeled hXn hAn hBn hCn hDn, hasLabels_four hX hXne (lineAbstract D),
      if_pos rfl]
    exact hex
  · have hDD : pyStrip (D1 ++ abstractTag ++ D2) = D1 ++ abstractTag ++ D2 :=
      trimmed_append_trimmed hD1 hD1ne abstractTag hD2 hD2ne
    have hEne : D1 ++ abstractTag ++ D2 ≠ [] := by
      intro h
      exact hD2ne (List.append_eq_nil.mp h).2
    have hEn : '\n' ∉ D1 ++ abstractTag ++ D2 :=
      not_mem_append (not_mem_append hD1n (by decide)) hD2n
    have hform : mkLabeledContent X A B C (D1 ++ abstractTag ++ D2)
        = mkPre X A B C ++ lineAbstract (D1 ++ abstractTag ++ D2) := rfl
    have habs : pyStrip (((splitOnSub abstractTag
        (mkPre X A B C ++ (abstractTag ++ ' ' :: (D1 ++ abstractTag ++ D2)))).drop
          1).headD []) = D1 :=
      labeledAbs_double hpre hD1 hD1c
    have hex := labeledExtract_canonical hX hXne hXc hA hAne hcA hmA hB hBne hcB hmB
      hC hCne hcC (lineAbstract_strip hDD hEne) habs
    rw [hform] at hex
    rw [hform]
    simp only [loadPaperContent]
    rw [linesOf_mkLabeled hXn hAn hBn hCn hEn,
      hasLabels_four hX hXne (lineAbstract (D1 ++ abstractTag ++ D2)), if_pos rfl]
    exact hex
  · simp only [loadPaperContent]
    rw [linesOf_mkNoAbs hXn hAn hBn hCn, hasLabels_three hX hXne, if_pos rfl]
    simp only [labeledExtract,
      labeled_fold_three hX hXne hXc hA hAne hcA hmA hB hBne hcB hmB hC hCne hcC,
      hpre3, Bool.false_eq_true, if_false]

/-- C1 counterexample: on `Title: T\nAbstract: one Abstract: two` the code
produces the abstract `one` (the text between the first and second
markers), not `one Abstract: two` (everything after the first marker,
trimmed) as the claim states. -/
theorem claim1_counterexample :
    (loadPaperContent exC1).abstract = "one".toList
    ∧ pyStrip (afterFirst abstractTag exC1) = "one Abstract: two".toList
    ∧ (loadPaperContent exC1).abstract ≠ pyStrip (afterFirst abstractTag exC1) :=
  ⟨by decide, by decide, by decide⟩

/-- C1 witness: the amended theorem applied at a concrete labeled
document. -/
theorem claim1_witness :
    loadPaperContent (mkLabeledContent ("Galaxy Zoo".toList) ("Ann Smith".toList)
        ("Bo Jones".toList) ("astro-ph".toList) ("We observe things.".toList))
      = ⟨"Galaxy Zoo".toList, ["Ann Smith".toList, "Bo Jones".toList],
         "astro-ph".toList, "We observe things.".toList⟩
    ∧ loadPaperContent (mkLabeledNoAbs ("Galaxy Zoo".toList) ("Ann Smith".toList)
        ("Bo Jones".toList) ("astro-ph".toList))
      = ⟨"Galaxy Zoo".toList, ["Ann Smith".toList, "Bo Jones".toList],
         "astro-ph".toList, []⟩ := by
  have h := claim1_labeled_extraction ("Galaxy Zoo".toList) ("Ann Smith".toList)
    ("Bo Jones".toList) ("astro-ph".toList) ("We observe things.".toList)
    ("first part".toList) ("second part".toList)
    (by decide) (by decide) (by decide) (by decide)
    (by decide) (by decide) (by decide) (by decide) (by decide)
    (by decide) (by decide) (by decide) (by decide) (by decide)
    (by decide) (by decide) (by decide) (by decide)
    (by decide) (by decide) (by decide) (by decide)
    (by decide) (by decide) (by decide) (by decide)
    (by decide) (by decide) (by decide)
    (by decide) (by decide)
  exact ⟨h.1, h.2.2⟩

/-! ## Claim C2 -/

lemma collectAuthors_mem : ∀ (fuel : Nat) (ls : List Str), ∀ s ∈ collectAuthors fuel ls,
    markerCond s = true ∨ oneStarCond s = true := by
  intro fuel
  induction fuel with
  | zero => intro ls s hs; simp [collectAuthors] at hs
  | succ n ih =>
    intro ls s hs
    cases ls with
    | nil => simp [collectAuthors] at hs
    | cons l rest =>
      revert hs
      simp only [collectAuthors]
      by_cases h1 : pyStrip l = []
      · rw [if_pos h1]
        intro hs
        simp at hs
      · rw [if_neg h1]
        by_cases h2 : markerCond (pyStrip l) = true
        · rw [if_pos h2]
          intro hs
          rcases List.mem_cons.mp hs with rfl | hs
          · exact Or.inl h2
          · exact ih rest s hs
        · rw [if_neg h2]
          by_cases h3 : oneStarCond (pyStrip l) = true
          · rw [if_pos h3]
            intro hs
            rcases List.mem_cons.mp hs with rfl | hs
            · exact Or.inr h3
            · exact ih rest s hs
          · rw [if_neg h3]
            by_cases h4 : affilCond (pyStrip l) = true
            · rw [if_pos h4]
              intro hs
              simp at hs
            · rw [if_neg h4]
              exact ih rest s

lemma collectAuthors_stop : ∀ (j fuel : Nat) (ls : List Str), j < fuel → j < ls.length →
    stopAuthorCond (pyStrip (ls.getD j [])) = true →
    collectAuthors fuel ls = collectAuthors fuel (ls.take (j + 1)) := by
  intro j
  induction j with
  | zero =>
    intro fuel ls hf hl hstop
    cases ls with
    | nil => simp at hl
    | cons l rest =>
      cases fuel with
      | zero => rfl
      | succ n =>
        have hstop' : stopAuthorCond (pyStrip l) = true := by
          simpa using hstop
        have ht : List.take 1 (l :: rest) = [l] := rfl
        rw [ht]
        rcases Bool.or_eq_true_iff.mp hstop' with h1 | h1
        · have h1' : pyStrip l = [] := by simpa using h1
          simp [collectAuthors, h1']
        · have hm : markerCond (pyStrip l) = false := by
            have := (Bool.and_eq_true_iff.mp ((Bool.and_eq_true_iff.mp h1).1)).1
            simpa using this
          have ho : oneStarCond (pyStrip l) = false := by
            have := (Bool.and_eq_true_iff.mp ((Bool.and_eq_true_iff.mp h1).1)).2
            simpa using this
          have ha : affilCond (pyStrip l) = true := (Bool.and_eq_true_iff.mp h1).2
          by_cases h0 : pyStrip l = []
          · simp [collectAuthors, h0]
          · simp only [collectAuthors, if_neg h0, hm, ho, ha, Bool.false_eq_true,
              if_false, if_true]
  | succ j ih =>
    intro fuel ls hf hl hstop
    cases ls with
    | nil => simp at hl
    | cons l rest =>
      cases fuel with
      | zero => exact absurd hf (by omega)
      | succ n =>
        have hf' : j < n := by omega
        have hl' : j < rest.length := by simpa using hl
        have hstop' : stopAuthorCond (pyStrip (rest.getD j [])) = true := by
          simpa using hstop
        have htake : List.take (j + 1 + 1) (l :: rest) = l :: List.take (j + 1) rest := rfl
        rw [htake]
        simp only [collectAuthors]
        by_cases h1 : pyStrip l = []
        · rw [if_pos h1, if_pos h1]
        · rw [if_neg h1, if_neg h1]
          by_cases h2 : markerCond (pyStrip l) = true
          · rw [if_pos h2, if_pos h2, ih n rest hf' hl' hstop']
          · rw [if_neg h2, if_neg h2]
            by_cases h3 : oneStarCond (pyStrip l) = true
            · rw [if_pos h3, if_pos h3, ih n rest hf' hl' hstop']
            · rw [if_neg h3, if_neg h3]
              by_cases h4 : affilCond (pyStrip l) = true
              · rw [if_pos h4, if_pos h4]
              · rw [if_neg h4, if_neg h4, ih n rest hf' hl' hstop']

/-- C2 (amended): author-line collection (the loop run from
`author_start_idx` with a 10-line window, `collectAuthors` in
`heuristicExtract`) gathers only stripped lines that contain a digit in
their first 10 characters, `@`, or `*`, or start with `1` or `*`; and no
line after a blank line, or after a line matching neither condition that
mentions an affiliation word, contributes.  A non-blank line matching
neither condition that does not mention an affiliation word is merely
skipped — collection continues past it, contrary to the claim. -/
theorem claim2_author_collection :
    (∀ (fuel : Nat) (ls : List Str), ∀ s ∈ collectAuthors fuel ls,
        markerCond s = true ∨ oneStarCond s = true)
    ∧ (∀ (j fuel : Nat) (ls : List Str), j < fuel → j < ls.length →
        stopAuthorCond (pyStrip (ls.getD j [])) = true →
        collectAuthors fuel ls = collectAuthors fuel (ls.take (j + 1))) :=
  ⟨collectAuthors_mem, collectAuthors_stop⟩

/-- C2 counterexample: the middle line of `exC2` matches neither
collection condition (and is not blank and mentions no affiliation
word), yet the following line still contributes to the collected author
text. -/
theorem claim2_counterexample :
    markerCond (pyStrip (exC2.getD 1 [])) = false
    ∧ oneStarCond (pyStrip (exC2.getD 1 [])) = false
    ∧ pyStrip (exC2.getD 1 []) ≠ []
    ∧ affilCond (pyStrip (exC2.getD 1 [])) = false
    ∧ "Cee Dee2".toList ∈ collectAuthors 10 exC2 :=
  ⟨by decide, by decide, by decide, by decide, by decide⟩

/-- C2 witness: the amended theorem applied at concrete inputs — a
collected line satisfies a collection condition, and collection ignores
everything after a blank line. -/
theorem claim2_witness :
    (markerCond ("Ann Bee1".toList) = true ∨ oneStarCond ("Ann Bee1".toList) = true)
    ∧ collectAuthors 10 ["Ann Bee1".toList, [], "Xx9".toList]
        = collectAuthors 10 (["Ann Bee1".toList, [], "Xx9".toList].take 2) := by
  refine ⟨claim2_author_collection.1 10 ["Ann Bee1".toList, [], "Xx9".toList]
    ("Ann Bee1".toList) (by decide), ?_⟩
  exact claim2_author_collection.2 1 10 ["Ann Bee1".toList, [], "Xx9".toList]
    (by decide) (by decide) (by decide)

/-! ## Claim C3 -/

/-- C3: when no line among the first 20, after trimming, begins with
`Title:`, `load_paper` is exactly the heuristic extraction (the labeled
field parsing is never applied, even if the tokens appear later); when
some line among the first 20 begins with `Title:`, it is exactly the
labeled extraction (the heuristic path never runs).  On `exC3`, where
`Title:` appears only on line 21, the heuristic path runs and the late
`Title:` value is not picked up. -/
theorem claim3_format_dispatch :
    (∀ content : Str,
      (hasLabels (linesOf content) = false →
        loadPaperContent content = heuristicExtract content (linesOf content))
      ∧ (hasLabels (linesOf content) = true →
        loadPaperContent content = labeledExtract (linesOf content) content)
      ∧ (hasLabels (linesOf content) = true ↔
          ∃ l ∈ (linesOf content).take 20, titleTag.isPrefixOf (pyStrip l) = true))
    ∧ hasLabels (linesOf exC3) = false
    ∧ titleTag.isPrefixOf (pyStrip ((linesOf exC3).getD 20 [])) = true
    ∧ (loadPaperContent exC3).title ≠ "LATE".toList := by
  refine ⟨fun content => ⟨?_, ?_, ?_⟩, by decide, by decide, by decide⟩
  · intro h
    simp only [loadPaperContent, h, Bool.false_eq_true, if_false]
  · intro h
    simp only [loadPaperContent, h, if_true]
  · simp only [hasLabels, List.any_eq_true]

/-- C3 witness: the dispatch theorem applied at a document whose only
`Title:` is on line 21 (heuristic side) and at a one-line labeled
document (labeled side). -/
theorem claim3_witness :
    hasLabels (linesOf exC3) = false
    ∧ loadPaperContent exC3 = heuristicExtract exC3 (linesOf exC3)
    ∧ hasLabels (linesOf ("Title: X".toList)) = true
    ∧ loadPaperContent ("Title: X".toList)
        = labeledExtract (linesOf ("Title: X".toList)) ("Title: X".toList) :=
  ⟨by decide, (claim3_format_dispatch.1 exC3).1 (by decide), by decide,
   (claim3_format_dispatch.1 ("Title: X".toList)).2.1 (by decide)⟩

/-! ## Claim C4 -/

/-- C4: `_count_occurrences` uses case-insensitive whole-word boundary
counting when the normalized keyword has no space and is alphanumeric,
and non-overlapping left-to-right case-insensitive substring counting
otherwise; `starburst galaxies` gives 0 for `star` and 1 for `galaxies`,
and a text containing `dark matter` twice gives 2 for `dark matter`. -/
theorem claim4_count_policy :
    (∀ text kw : Str, lowerStr (normalizeSpace kw) ≠ [] →
      ((lowerStr (normalizeSpace kw)).contains ' ' = false
          ∧ pyIsAlnum (lowerStr (normalizeSpace kw)) = true →
        countOccurrences text kw
          = countWordBoundary (lowerStr (normalizeSpace kw))
              (lowerStr (normalizeSpace text)))
      ∧ ((lowerStr (normalizeSpace kw)).contains ' ' = true
          ∨ pyIsAlnum (lowerStr (normalizeSpace kw)) = false →
        countOccurrences text kw
          = pyCount (lowerStr (normalizeSpace kw)) (lowerStr (normalizeSpace text))))
    ∧ countOccurrences ("starburst galaxies".toList) ("star".toList) = 0
    ∧ countOccurrences ("starburst galaxies".toList) ("galaxies".toList) = 1
    ∧ countOccurrences ("observed dark matter halo and dark matter density".toList)
        ("dark matter".toList) = 2 := by
  refine ⟨fun text kw hne => ⟨?_, ?_⟩, by decide, by decide, by decide⟩
  · intro ⟨h1, h2⟩
    simp only [countOccurrences, if_neg hne, h1, h2, Bool.not_false, Bool.and_self,
      if_true]
  · intro h
    rcases h with h | h
    · simp only [countOccurrences, if_neg hne, h, Bool.not_true, Bool.false_and,
        Bool.false_eq_true, if_false]
    · simp only [countOccurrences, if_neg hne, h, Bool.and_false, Bool.false_eq_true,
        if_false]

/-- C4 witness: the dispatch applied at a word keyword and at a phrase
keyword. -/
theorem claim4_witness :
    lowerStr (normalizeSpace ("galaxies".toList)) ≠ []
    ∧ countOccurrences ("starburst galaxies".toList) ("galaxies".toList)
        = countWordBoundary (lowerStr (normalizeSpace ("galaxies".toList)))
            (lowerStr (normalizeSpace ("starburst galaxies".toList)))
    ∧ countOccurrences ("observed dark matter halo".toList) ("dark matter".toList)
        = pyCount (lowerStr (normalizeSpace ("dark matter".toList)))
            (lowerStr (normalizeSpace ("observed dark matter halo".toList))) :=
  ⟨by decide,
   (claim4_count_policy.1 ("starburst galaxies".toList) ("galaxies".toList)
      (by decide)).1 ⟨by decide, by decide⟩,
   (claim4_count_policy.1 ("observed dark matter halo".toList) ("dark matter".toList)
      (by decide)).2 (Or.inl (by decide))⟩

/-! ## Claim C5 -/

lemma collectAbstract_eq : ∀ ls : List Str,
    collectAbstract ls
      = ((ls.map pyStrip).takeWhile (fun s => !isStopHeading s)).filter
          (fun s => s ≠ []) := by
  intro ls
  induction ls with
  | nil => rfl
  | cons l rest ih =>
    simp only [collectAbstract, List.map_cons, List.takeWhile_cons]
    by_cases hstop : isStopHeading (pyStrip l) = true
    · rw [if_pos hstop, hstop]
      simp
    · have hstop' : isStopHeading (pyStrip l) = false := Bool.eq_false_iff.mpr hstop
      rw [if_neg hstop, hstop']
      simp only [Bool.not_false, if_true, List.filter_cons]
      by_cases hne : pyStrip l = []
      · rw [if_neg (fun hcon => hcon hne), ih]
        simp [hne]
      · rw [if_pos hne, ih]
        simp [hne]

lemma firstIdxFrom_spec (p : Str → Bool) : ∀ (ls : List Str) (k i : Nat),
    firstIdxFrom p k ls = some i →
    k ≤ i ∧ i - k < ls.length ∧ p (ls.getD (i - k) []) = true
      ∧ ∀ m, m < i - k → p (ls.getD m []) = false := by
  intro ls
  induction ls with
  | nil => intro k i h; simp [firstIdxFrom] at h
  | cons l rest ih =>
    intro k i h
    rw [firstIdxFrom] at h
    by_cases hp : p l = true
    · rw [if_pos hp] at h
      injection h with h
      subst h
      refine ⟨le_refl k, by simp, ?_, ?_⟩
      · simp [hp]
      · intro m hm
        omega
    · rw [if_neg hp] at h
      obtain ⟨h1, h2, h3, h4⟩ := ih (k + 1) i h
      have hik : i - k = (i - (k + 1)) + 1 := by omega
      refine ⟨by omega, ?_, ?_, ?_⟩
      · simp only [List.length_cons]
        omega
      · rw [hik]
        simpa using h3
      · intro m hm
        cases m with
        | zero => simpa using Bool.eq_false_iff.mpr hp
        | succ m' =>
          have : m' < i - (k + 1) := by omega
          simpa using h4 m' this

/-- C5: in the heuristic path, when line `i` is the first line whose
uppercased trimmed form is exactly `ABSTRACT`, or starts with `ABSTRACT`
and is shorter than 20 characters, the abstract equals the non-blank
stripped lines after line `i`, joined by single spaces and trimmed,
collected up to but excluding the first line matching
`^\d+\s+(INTRODUCTION|Introduction|INTRO)` or whose uppercased form
starts with `KEY WORDS` or `KEYWORDS` — so the stopping heading text is
never part of the abstract. -/
theorem claim5_heuristic_abstract :
    ∀ (content : Str) (lines : List Str) (i : Nat),
      firstIdxFrom isAbstractMarker 0 lines = some i →
      (i < lines.length ∧ isAbstractMarker (lines.getD i []) = true
        ∧ ∀ m, m < i → isAbstractMarker (lines.getD m []) = false)
      ∧ heurAbstract content lines = specAbstract lines i := by
  intro content lines i h
  obtain ⟨-, h2, h3, h4⟩ := firstIdxFrom_spec isAbstractMarker lines 0 i h
  simp only [Nat.sub_zero] at h2 h3 h4
  refine ⟨⟨h2, h3, h4⟩, ?_⟩
  unfold heurAbstract
  rw [h]
  show pyStrip (joinSpace (collectAbstract (lines.drop (i + 1)))) = specAbstract lines i
  rw [collectAbstract_eq]
  rfl

/-- C5 witness: the theorem applied at a concrete six-line document. -/
theorem claim5_witness :
    firstIdxFrom isAbstractMarker 0 exC5 = some 1
    ∧ heurAbstract [] exC5 = specAbstract exC5 1
    ∧ specAbstract exC5 1 = "First body line. Second body line.".toList :=
  ⟨by decide, (claim5_heuristic_abstract [] exC5 1 (by decide)).2, by decide⟩

/-! ## Claim C6 -/

lemma parseAuthors_residue {text : Str} : ∀ a ∈ parseAuthors text,
    authorResidue a ≠ [] ∧ pyStrip a = a ∧ a ≠ [] := by
  intro a ha
  simp only [parseAuthors] at ha
  rw [List.mem_filter] at ha
  obtain ⟨ha2, hlen⟩ := ha
  rw [List.mem_map] at ha2
  obtain ⟨x, -, rfl⟩ := ha2
  have hlen' : (pyStrip (x.filter (fun c => !authorMark c))).length > 2 := by
    simpa using hlen
  have hstrip : pyStrip (pyStrip (x.filter (fun c => !authorMark c)))
      = pyStrip (x.filter (fun c => !authorMark c)) := pyStrip_idem _
  have hne : pyStrip (x.filter (fun c => !authorMark c)) ≠ [] := by
    intro h
    rw [h] at hlen'
    simp at hlen'
  refine ⟨?_, hstrip, hne⟩
  have hchars : ∀ c ∈ pyStrip (x.filter (fun c => !authorMark c)),
      (!authorMark c) = true := by
    intro c hc
    exact (List.mem_filter.mp (mem_pyStrip hc)).2
  unfold authorResidue
  rw [List.filter_eq_self.mpr hchars, hstrip]
  exact hne

lemma heuristic_authors_residue : ∀ (content : Str) (lines : List Str),
    ∀ a ∈ (heuristicExtract content lines).authors,
      authorResidue a ≠ [] ∧ pyStrip a = a ∧ a ≠ [] := by
  intro content lines a ha
  simp only [heuristicExtract] at ha
  split at ha
  · exact parseAuthors_residue a ha
  · simp at ha

lemma labeledStep_authors_inv (acc : Str × List Str × Str) (line : Str)
    (hinv : ∀ a ∈ acc.2.1, pyStrip a = a ∧ a ≠ []) :
    ∀ a ∈ (labeledStep acc line).2.1, pyStrip a = a ∧ a ≠ [] := by
  intro a ha
  simp only [labeledStep] at ha
  split at ha
  · exact hinv a ha
  · split at ha
    · rw [List.mem_filter] at ha
      obtain ⟨ha2, hane⟩ := ha
      rw [List.mem_map] at ha2
      obtain ⟨x, -, rfl⟩ := ha2
      exact ⟨pyStrip_idem x, by simpa using hane⟩
    · split at ha
      · exact hinv a ha
      · exact hinv a ha

lemma labeled_fold_authors_inv : ∀ (lines : List Str) (acc : Str × List Str × Str),
    (∀ a ∈ acc.2.1, pyStrip a = a ∧ a ≠ []) →
    ∀ a ∈ (lines.foldl labeledStep acc).2.1, pyStrip a = a ∧ a ≠ [] := by
  intro lines
  induction lines with
  | nil => intro acc hinv; simpa using hinv
  | cons l rest ih =>
    intro acc hinv
    rw [List.foldl_cons]
    exact ih (labeledStep acc l) (labeledStep_authors_inv acc l hinv)

lemma labeledExtract_authors : ∀ (lines : List Str) (content : Str),
    ∀ a ∈ (labeledExtract lines content).authors, pyStrip a = a ∧ a ≠ [] := by
  intro lines content a ha
  simp only [labeledExtract] at ha
  exact labeled_fold_authors_inv lines ([], [], []) (by simp) a ha

/-- C6 (amended): for every constructed Paper, each `authors` entry is
trimmed and non-empty; on the heuristic path each entry is moreover
non-empty after stripping the numeric and footnote markers (digits, `*`,
`★`).  The labeled path does not strip markers, so the full invariant
fails there (see the counterexample). -/
theorem claim6_authors_invariant :
    ∀ content : Str,
      (∀ a ∈ (loadPaperContent content).authors, pyStrip a = a ∧ a ≠ [])
      ∧ (hasLabels (linesOf content) = false →
          ∀ a ∈ (loadPaperContent content).authors, authorResidue a ≠ []) := by
  intro content
  by_cases h : hasLabels (linesOf content) = true
  · constructor
    · intro a ha
      simp only [loadPaperContent, h, if_true] at ha
      exact labeledExtract_authors _ _ a ha
    · intro hfalse
      rw [h] at hfalse
      exact absurd hfalse (by simp)
  · have h' : hasLabels (linesOf content) = false := Bool.eq_false_iff.mpr h
    constructor
    · intro a ha
      simp only [loadPaperContent, h', Bool.false_eq_true, if_false] at ha
      exact (heuristic_authors_residue _ _ a ha).2
    · intro _ a ha
      simp only [loadPaperContent, h', Bool.false_eq_true, if_false] at ha
      exact (heuristic_authors_residue _ _ a ha).1

/-- C6 counterexample: the labeled document `Title: T\nAuthors: 1` yields
the author entry `1`, which is empty after stripping numeric markers —
the claimed invariant fails on the labeled path. -/
theorem claim6_counterexample :
    (loadPaperContent exC6).authors = ["1".toList]
    ∧ authorResidue ("1".toList) = [] :=
  ⟨by decide, by decide⟩

/-- C6 witness: the amended invariant applied to a concrete labeled
paper and a concrete heuristic paper. -/
theorem claim6_witness :
    (pyStrip ("Ann".toList) = "Ann".toList ∧ "Ann".toList ≠ [])
    ∧ authorResidue ("John Smith".toList) ≠ [] := by
  constructor
  · exact (claim6_authors_invariant ("Title: T\nAuthors: Ann, Bob".toList)).1
      ("Ann".toList) (by decide)
  · exact (claim6_authors_invariant
      ("A Longer Title Line Here\n1John Smith, 2Jane Doe".toList)).2 (by decide)
      ("John Smith".toList) (by decide)

/-! ## Claim C7 -/

lemma topRel_total (v : List Nat) : ∀ i j, topRel v i j ∨ topRel v j i := by
  intro i j
  unfold topRel
  omega

lemma topRel_trans (v : List Nat) :
    ∀ i j k, topRel v i j → topRel v j k → topRel v i k := by
  intro i j k h1 h2
  unfold topRel at h1 h2 ⊢
  omega

/-- C7: `_top_n_indices` selects the indices of the `n` largest values
(every selected index beats every unselected one, with ties won by the
smaller original index), the result is duplicate-free, within range, of
length `min n len`, and sorted by value descending with ties by ascending
index; in particular `top_n([3,1,4,1,5], 2) = [4, 2]`. -/
theorem claim7_top_n :
    topNIndices [3, 1, 4, 1, 5] 2 = [4, 2]
    ∧ ∀ (v : List Nat) (n : Nat),
        (topNIndices v n).length = min n v.length
        ∧ (∀ i ∈ topNIndices v n, i < v.length)
        ∧ (topNIndices v n).Nodup
        ∧ List.Sorted (topRel v) (topNIndices v n)
        ∧ ∀ i ∈ topNIndices v n, ∀ j, j < v.length → j ∉ topNIndices v n →
            v.getD j 0 < v.getD i 0 ∨ (v.getD j 0 = v.getD i 0 ∧ i < j) := by
  refine ⟨by decide, fun v n => ?_⟩
  haveI : IsTotal Nat (topRel v) := ⟨topRel_total v⟩
  haveI : IsTrans Nat (topRel v) := ⟨topRel_trans v⟩
  have hperm : (List.insertionSort (topRel v) (List.range v.length)).Perm
      (List.range v.length) := List.perm_insertionSort _ _
  have hlenfull : (List.insertionSort (topRel v) (List.range v.length)).length
      = v.length := by rw [hperm.length_eq, List.length_range]
  have hnodup : (List.insertionSort (topRel v) (List.range v.length)).Nodup :=
    (hperm.nodup_iff).mpr (List.nodup_range _)
  have hsorted : List.Sorted (topRel v)
      (List.insertionSort (topRel v) (List.range v.length)) :=
    List.sorted_insertionSort _ _
  refine ⟨?_, ?_, ?_, ?_, ?_⟩
  · rw [show topNIndices v n
        = (List.insertionSort (topRel v) (List.range v.length)).take n from rfl,
      List.length_take, hlenfull]
  · intro i hi
    have : i ∈ List.range v.length :=
      hperm.mem_iff.mp ((List.take_sublist _ _).mem hi)
    exact List.mem_range.mp this
  · exact hnodup.sublist (List.take_sublist _ _)
  · exact hsorted.sublist (List.take_sublist _ _)
  · intro i hi j hjlt hjnot
    have hjfull : j ∈ List.insertionSort (topRel v) (List.range v.length) :=
      hperm.mem_iff.mpr (List.mem_range.mpr hjlt)
    have hjdrop : j ∈ (List.insertionSort (topRel v) (List.range v.length)).drop n := by
      have := (List.take_append_drop n
        (List.insertionSort (topRel v) (List.range v.length))) ▸ hjfull
      rcases List.mem_append.mp this with h | h
      · exact absurd h hjnot
      · exact h
    have hp : List.Pairwise (topRel v)
        ((List.insertionSort (topRel v) (List.range v.length)).take n
          ++ (List.insertionSort (topRel v) (List.range v.length)).drop n) := by
      rw [List.take_append_drop]
      exact hsorted
    have hpair : topRel v i j := (List.pairwise_append.mp hp).2.2 i hi j hjdrop
    have hij : i ≠ j := by
      intro hij0
      subst hij0
      have hnd : ((List.insertionSort (topRel v) (List.range v.length)).take n
          ++ (List.insertionSort (topRel v) (List.range v.length)).drop n).Nodup := by
        rw [List.take_append_drop]
        exact hnodup
      exact (List.disjoint_left.mp (List.nodup_append.mp hnd).2.2) hi hjdrop
    unfold topRel at hpair
    rcases hpair with h | ⟨heq, hle⟩
    · exact Or.inl h
    · exact Or.inr ⟨heq.symm, lt_of_le_of_ne hle hij⟩

/-- C7 witness: the general selection property applied at
`top_n([3,1,4,1,5], 2)` with the selected index 4 and the unselected
index 0. -/
theorem claim7_witness :
    (4 ∈ topNIndices [3, 1, 4, 1, 5] 2)
    ∧ ([3, 1, 4, 1, 5].getD 0 0 < [3, 1, 4, 1, 5].getD 4 0
        ∨ ([3, 1, 4, 1, 5].getD 0 0 = [3, 1, 4, 1, 5].getD 4 0 ∧ 4 < 0)) :=
  ⟨by decide,
   (claim7_top_n.2 [3, 1, 4, 1, 5] 2).2.2.2.2 4 (by decide) 0 (by decide) (by decide)⟩

/-! ## Claim C8 -/

/-- C8: `load_all_papers` returns, in index order, exactly the papers of
the files that exist — a missing `paper{i}.txt` contributes nothing (it
is recorded as a diagnostic, modelled by `missingFiles`) and nothing is
raised (the function is total).  With `paper1.txt`–`paper3.txt` present
and `paper4.txt` onward missing, the result is the 3-element sequence of
papers 1, 2, 3 in order. -/
theorem claim8_load_all :
    (∀ fs : Nat → Option Str,
      loadAllPapers fs
        = ((List.range 10).map (· + 1)).filterMap (fun i => (fs i).map loadPaperContent))
    ∧ loadAllPapers exC8fs
        = [loadPaperContent ("Title: First".toList),
           loadPaperContent ("Title: Second".toList),
           loadPaperContent ("Title: Third".toList)]
    ∧ (loadAllPapers exC8fs).length = 3
    ∧ missingFiles exC8fs = [4, 5, 6, 7, 8, 9, 10] := by
  refine ⟨fun fs => ?_, by decide, by decide, by decide⟩
  simp [loadAllPapers, List.filterMap_map, Function.comp]

/-! ## Claim C9 -/

/-- C9: `contains_keywords` with an empty keyword list returns `True`
(vacuous match) while `get_matching_keywords` returns the empty list;
matching is case-insensitive by default, so a paper with title
`Galaxy Formation` matches the keyword `galaxy`. -/
theorem claim9_empty_and_case :
    (∀ p : PaperR, containsKeywords p [] false = true)
    ∧ (∀ p : PaperR, getMatchingKeywords p [] false = [])
    ∧ containsKeywords exC9 ["galaxy".toList] false = true := by
  refine ⟨fun p => ?_, fun p => ?_, by decide⟩
  · simp [containsKeywords]
  · simp [getMatchingKeywords]

/-! ## Claim C10 -/

lemma mem_zip_self_map {α β : Type _} (f : α → β) :
    ∀ {l : List α} {a : α}, a ∈ l → (a, f a) ∈ l.zip (l.map f) := by
  intro l
  induction l with
  | nil => intro a h; simp at h
  | cons x xs ih =>
    intro a h
    rcases List.mem_cons.mp h with rfl | h
    · simp [List.zip]
    · simp only [List.map_cons, List.zip_cons_cons]
      exact List.mem_cons_of_mem _ (ih h)

/-- C10: the searchable text (title, a space, abstract) is never empty,
and since each keyword is tested as a plain substring of it,
`contains_keywords` returns `True` whenever the keyword list contains the
empty string — even for a paper whose title and abstract are both
empty — and `get_matching_keywords` includes that empty keyword. -/
theorem claim10_empty_keyword :
    (∀ p : PaperR, getSearchableText p ≠ [])
    ∧ (∀ (p : PaperR) (kws : List Str), [] ∈ kws →
        containsKeywords p kws false = true
        ∧ [] ∈ getMatchingKeywords p kws false) := by
  refine ⟨fun p => ?_, fun p kws hmem => ⟨?_, ?_⟩⟩
  · simp [getSearchableText]
  · have hne : kws ≠ [] := by
      intro h
      rw [h] at hmem
      simp at hmem
    simp only [containsKeywords, if_neg hne, Bool.if_false_right, Bool.if_true_left]
    rw [List.any_eq_true]
    exact ⟨[], List.mem_map.mpr ⟨[], hmem, rfl⟩, containsSub_nil_left _⟩
  · have hne : kws ≠ [] := by
      intro h
      rw [h] at hmem
      simp at hmem
    simp only [getMatchingKeywords, if_neg hne]
    rw [List.mem_filterMap]
    refine ⟨([], []), ?_, ?_⟩
    · exact mem_zip_self_map lowerStr hmem
    · rw [containsSub_nil_left]
      simp

/-- C10 witness: the theorem applied to the all-empty paper and the
keyword list containing only the empty string. -/
theorem claim10_witness :
    (([] : Str) ∈ [([] : Str)])
    ∧ containsKeywords ⟨[], [], [], []⟩ [[]] false = true
    ∧ ([] : Str) ∈ getMatchingKeywords ⟨[], [], [], []⟩ [[]] false :=
  ⟨by decide, (claim10_empty_keyword.2 ⟨[], [], [], []⟩ [[]] (by decide)).1,
   (claim10_empty_keyword.2 ⟨[], [], [], []⟩ [[]] (by decide)).2⟩
